import Mathlib

/-
  Verification of the linked geo data structure of src/src/h3lib/lib/linkedGeo.c.

  The C module manipulates a three-level intrusive singly-linked structure
  (polygon chain -> loop chain -> coordinate chain) through raw pointers.
  We embed it shallowly as an explicit heap: three address-indexed stores
  (one per node kind, since the three C structs have distinct types and
  cannot alias each other) together with allocation counters.  An address
  is a Nat; a NULL pointer is (none : Option Nat).  Reading a dangling
  address yields none; a failed C assert or a read through a dangling
  pointer makes the embedded operation return none.  Loops in the C code
  (destruction and counting) become fuel-indexed recursions: with enough
  fuel they compute exactly what the C loop computes.
-/

/-- Modelled from the spec: the coordinate payload (struct GeoCoord of
geoCoord.h, which is not part of the given sources) is a pair of numeric
components.  The module only copies the value and never inspects it, so we
model the two components as integers to keep equality decidable. -/
structure GeoCoord where
  lat : Int
  lon : Int
deriving DecidableEq, Repr

/-- Modelled from the spec: a coordinate node (struct LinkedGeoCoord of
linkedGeo.h, not part of the given sources) holds one point value and a
pointer to the next coordinate node of its loop, or NULL. -/
structure LinkedGeoCoord where
  vertex : GeoCoord
  next : Option Nat
deriving DecidableEq, Repr

/-- Modelled from the spec: a loop entity (struct LinkedGeoLoop of
linkedGeo.h, not part of the given sources) holds first/last pointers into
its coordinate chain and a pointer to the next loop of its polygon, or
NULL. -/
structure LinkedGeoLoop where
  first : Option Nat
  last : Option Nat
  next : Option Nat
deriving DecidableEq, Repr

/-- Modelled from the spec: a polygon entity (struct LinkedGeoPolygon of
linkedGeo.h, not part of the given sources) holds first/last pointers into
its loop chain and a pointer to the next polygon, or NULL. -/
structure LinkedGeoPolygon where
  first : Option Nat
  last : Option Nat
  next : Option Nat
deriving DecidableEq, Repr

/-- The mutable store the C functions act on: one address-indexed store per
node kind plus an allocation counter per kind (every address at or above
the counter is unallocated; malloc/calloc returns the counter and bumps
it, so fresh addresses are distinct from all live ones). -/
structure Heap where
  coords : Nat → Option LinkedGeoCoord
  loops : Nat → Option LinkedGeoLoop
  polys : Nat → Option LinkedGeoPolygon
  coordCtr : Nat
  loopCtr : Nat
  polyCtr : Nat

/-- Store the value v at address a (a C pointer write). -/
def hupd {α : Type} (f : Nat → Option α) (a : Nat) (v : α) : Nat → Option α :=
  fun x => if x = a then some v else f x

/-- Release address a (the C free): the address becomes dangling. -/
def hdel {α : Type} (f : Nat → Option α) (a : Nat) : Nat → Option α :=
  fun x => if x = a then none else f x

/-- Allocation-counter well-formedness: no address at or above a counter is
live.  Every state reachable from an empty heap satisfies this; it is what
makes a malloc result genuinely fresh. -/
def Heap.WF (s : Heap) : Prop :=
  (∀ a, s.coordCtr ≤ a → s.coords a = none) ∧
  (∀ a, s.loopCtr ≤ a → s.loops a = none) ∧
  (∀ a, s.polyCtr ≤ a → s.polys a = none)

/-- addNewLinkedPolygon of linkedGeo.c: assert the current polygon has no
next, calloc a zero-initialized polygon, link it as the next of the
current one and return it.  A failed assert (next already set, or the
argument dangling) is modelled as none. -/
def addNewLinkedPolygon (s : Heap) (p : Nat) : Option (Heap × Nat) := do
  let poly ← s.polys p
  if poly.next = none then
    let fresh := s.polyCtr
    let s1 : Heap := { s with
      polys := hupd s.polys fresh ⟨none, none, none⟩,
      polyCtr := s.polyCtr + 1 }
    let s2 : Heap := { s1 with
      polys := hupd s1.polys p { poly with next := some fresh } }
    some (s2, fresh)
  else
    none

/-- addLinkedLoop of linkedGeo.c: attach the existing loop l at the tail of
polygon p's loop chain.  If p has no last loop, the assert checks that
first is also unset and first is set to l; otherwise the old last loop's
next is set to l.  In both cases p's last becomes l and l is returned. -/
def addLinkedLoop (s : Heap) (p : Nat) (l : Nat) : Option (Heap × Nat) := do
  let poly ← s.polys p
  match poly.last with
  | none =>
    if poly.first = none then
      let s1 : Heap := { s with
        polys := hupd s.polys p { poly with first := some l, last := some l } }
      some (s1, l)
    else
      none
  | some lastAddr => do
    let lastLoop ← s.loops lastAddr
    let s1 : Heap := { s with
      loops := hupd s.loops lastAddr { lastLoop with next := some l } }
    let s2 : Heap := { s1 with
      polys := hupd s1.polys p { poly with last := some l } }
    some (s2, l)

/-- addNewLinkedLoop of linkedGeo.c: calloc a zero-initialized loop and
delegate to addLinkedLoop. -/
def addNewLinkedLoop (s : Heap) (p : Nat) : Option (Heap × Nat) :=
  let fresh := s.loopCtr
  let s1 : Heap := { s with
    loops := hupd s.loops fresh ⟨none, none, none⟩,
    loopCtr := s.loopCtr + 1 }
  addLinkedLoop s1 p fresh

/-- addLinkedCoord of linkedGeo.c: malloc a coordinate node holding a copy
of the vertex with next NULL, then attach it at the tail of loop l's
coordinate chain exactly as addLinkedLoop does for loops. -/
def addLinkedCoord (s : Heap) (l : Nat) (v : GeoCoord) : Option (Heap × Nat) := do
  let fresh := s.coordCtr
  let s1 : Heap := { s with
    coords := hupd s.coords fresh ⟨v, none⟩,
    coordCtr := s.coordCtr + 1 }
  let lp ← s1.loops l
  match lp.last with
  | none =>
    if lp.first = none then
      let s2 : Heap := { s1 with
        loops := hupd s1.loops l { lp with first := some fresh, last := some fresh } }
      some (s2, fresh)
    else
      none
  | some lastAddr => do
    let lastCoord ← s1.coords lastAddr
    let s2 : Heap := { s1 with
      coords := hupd s1.coords lastAddr { lastCoord with next := some fresh } }
    let s3 : Heap := { s2 with
      loops := hupd s2.loops l { lp with last := some fresh } }
    some (s3, fresh)

/-- The for-loop of destroyLinkedGeoLoop: walk the coordinate chain from c,
capturing each next pointer before freeing the current node.  Fuel bounds
the number of iterations; with fuel at least the chain length the result
is exactly the C behaviour, and reading a dangling node yields none. -/
def freeCoordChain (s : Heap) : Nat → Option Nat → Option Heap
  | _, none => some s
  | 0, some _ => none
  | fuel + 1, some a => do
    let c ← s.coords a
    let s1 : Heap := { s with coords := hdel s.coords a }
    freeCoordChain s1 fuel c.next

/-- destroyLinkedGeoLoop of linkedGeo.c: free every coordinate node of the
loop (the loop struct itself is not freed here). -/
def destroyLinkedGeoLoop (fuel : Nat) (s : Heap) (l : Nat) : Option Heap := do
  let lp ← s.loops l
  freeCoordChain s fuel lp.first

/-- The inner for-loop of destroyLinkedPolygon: for each loop of the chain,
destroy its coordinates, capture its next pointer, then free the loop
entity itself. -/
def freeLoopChain (cf : Nat) : Nat → Heap → Option Nat → Option Heap
  | _, s, none => some s
  | 0, _, some _ => none
  | lf + 1, s, some a => do
    let s1 ← destroyLinkedGeoLoop cf s a
    let lp ← s1.loops a
    let s2 : Heap := { s1 with loops := hdel s1.loops a }
    freeLoopChain cf lf s2 lp.next

/-- The outer for-loop of destroyLinkedPolygon: for each polygon, free its
loop chain, capture its next pointer, then free the polygon entity unless
the skip flag marks it as the caller-owned input polygon. -/
def freePolyChain (cf lf : Nat) : Nat → Heap → Option Nat → Bool → Option Heap
  | _, s, none, _ => some s
  | 0, _, some _, _ => none
  | pf + 1, s, some a, skip => do
    let poly ← s.polys a
    let s1 ← freeLoopChain cf lf s poly.first
    let poly2 ← s1.polys a
    let s2 : Heap := if skip then s1 else { s1 with polys := hdel s1.polys a }
    freePolyChain cf lf pf s2 poly2.next false

/-- destroyLinkedPolygon of linkedGeo.c: free all memory reachable from the
input polygon, except the input polygon struct itself (the skip flag is
initially true). -/
def destroyLinkedPolygon (cf lf pf : Nat) (s : Heap) (p : Nat) : Option Heap :=
  freePolyChain cf lf pf s (some p) true

/-- The while-loop of countLinkedPolygons: count the nodes of a polygon
chain.  Fuel bounds the iterations; running out of fuel or hitting a
dangling pointer yields none. -/
def countPolyChain (s : Heap) : Nat → Option Nat → Option Nat
  | _, none => some 0
  | 0, some _ => none
  | fuel + 1, some a => do
    let poly ← s.polys a
    let n ← countPolyChain s fuel poly.next
    some (n + 1)

/-- countLinkedPolygons of linkedGeo.c: length of the polygon chain
starting at the given (possibly NULL) polygon pointer. -/
def countLinkedPolygons (fuel : Nat) (s : Heap) (p : Option Nat) : Option Nat :=
  countPolyChain s fuel p

/-- The while-loop of countLinkedLoops over a loop chain. -/
def countLoopChain (s : Heap) : Nat → Option Nat → Option Nat
  | _, none => some 0
  | 0, some _ => none
  | fuel + 1, some a => do
    let lp ← s.loops a
    let n ← countLoopChain s fuel lp.next
    some (n + 1)

/-- countLinkedLoops of linkedGeo.c: length of polygon p's loop chain. -/
def countLinkedLoops (fuel : Nat) (s : Heap) (p : Nat) : Option Nat := do
  let poly ← s.polys p
  countLoopChain s fuel poly.first

/-- The while-loop of countLinkedCoords over a coordinate chain. -/
def countCoordChain (s : Heap) : Nat → Option Nat → Option Nat
  | _, none => some 0
  | 0, some _ => none
  | fuel + 1, some a => do
    let c ← s.coords a
    let n ← countCoordChain s fuel c.next
    some (n + 1)

/-- countLinkedCoords of linkedGeo.c: length of loop l's coordinate
chain. -/
def countLinkedCoords (fuel : Nat) (s : Heap) (l : Nat) : Option Nat := do
  let lp ← s.loops l
  countCoordChain s fuel lp.first

/-- A consumer's forward read of a coordinate chain (spec section 6: first,
last and next are directly observable, and a consumer steps through next):
the list of vertex values from pointer c onward. -/
def readCoordChain (s : Heap) : Nat → Option Nat → Option (List GeoCoord)
  | _, none => some []
  | 0, some _ => none
  | fuel + 1, some a => do
    let c ← s.coords a
    let rest ← readCoordChain s fuel c.next
    some (c.vertex :: rest)

/-- A consumer's forward read of loop l's coordinate chain via first and
next. -/
def readLinkedCoords (fuel : Nat) (s : Heap) (l : Nat) : Option (List GeoCoord) := do
  let lp ← s.loops l
  readCoordChain s fuel lp.first

/-- A producer performing one addLinkedCoord call per element of vs, in
order, on loop l. -/
def appendCoords (l : Nat) : Heap → List GeoCoord → Option Heap
  | s, [] => some s
  | s, v :: vs => do
    let (s1, _) ← addLinkedCoord s l v
    appendCoords l s1 vs

/-- A producer performing k addNewLinkedPolygon calls, each on the polygon
returned by the previous call; returns the final state and the last
polygon. -/
def appendPolys : Heap → Nat → Nat → Option (Heap × Nat)
  | s, p, 0 => some (s, p)
  | s, p, k + 1 => do
    let (s1, q) ← addNewLinkedPolygon s p
    appendPolys s1 q k

/-- The coordinate chain starting at pointer c consists exactly of the
given address/value pairs, in order, ending at NULL. -/
inductive CoordChain (s : Heap) : Option Nat → List (Nat × GeoCoord) → Prop
  | nil : CoordChain s none []
  | cons {a : Nat} {v : GeoCoord} {n : Option Nat} {rest : List (Nat × GeoCoord)} :
      s.coords a = some ⟨v, n⟩ → CoordChain s n rest →
      CoordChain s (some a) ((a, v) :: rest)

/-- A generic intrusive chain in a store f: the chain starting at the given
pointer consists of the given addresses in order (following the field
selected by nxt), ending at NULL. -/
inductive NextChain {β : Type} (f : Nat → Option β) (nxt : β → Option Nat) :
    Option Nat → List Nat → Prop
  | nil : NextChain f nxt none []
  | cons {a : Nat} {rec : β} {rest : List Nat} :
      f a = some rec → NextChain f nxt (nxt rec) rest →
      NextChain f nxt (some a) (a :: rest)

/-- The loop chain starting at a pointer, as a list of addresses. -/
def LoopNext (s : Heap) : Option Nat → List Nat → Prop :=
  NextChain s.loops LinkedGeoLoop.next

/-- The polygon chain starting at a pointer, as a list of addresses. -/
def PolyNext (s : Heap) : Option Nat → List Nat → Prop :=
  NextChain s.polys LinkedGeoPolygon.next

/-- The addresses of a coordinate chain description. -/
def coordAddrs (cs : List (Nat × GeoCoord)) : List Nat := cs.map Prod.fst

/-- The final element of a list, if any. -/
def lastElem {α : Type} : List α → Option α
  | [] => none
  | [a] => some a
  | _ :: rest => lastElem rest

/-- The address of the final node of a coordinate chain description, if
any. -/
def chainLast : List (Nat × GeoCoord) → Option Nat
  | [] => none
  | [(a, _)] => some a
  | _ :: rest => chainLast rest

/-- Description of one loop of a built structure: its address and its
coordinate chain (addresses with values). -/
structure LoopDesc where
  addr : Nat
  coords : List (Nat × GeoCoord)

/-- Description of one polygon of a built structure: its address and its
loop chain. -/
structure PolyDesc where
  addr : Nat
  loops : List LoopDesc

/-- The loop chain from a pointer matches the given loop descriptions: each
loop entity is live, its coordinate chain is as described, and the loops
are linked in order ending at NULL.  (The loop's last field is not
constrained: destruction never reads it.) -/
inductive LoopChain (s : Heap) : Option Nat → List LoopDesc → Prop
  | nil : LoopChain s none []
  | cons {a : Nat} {fst lst nx : Option Nat} {cs : List (Nat × GeoCoord)}
      {rest : List LoopDesc} :
      s.loops a = some ⟨fst, lst, nx⟩ → CoordChain s fst cs →
      LoopChain s nx rest → LoopChain s (some a) (⟨a, cs⟩ :: rest)

/-- The polygon chain from a pointer matches the given polygon
descriptions.  (The polygon's last field is not constrained: destruction
never reads it.) -/
inductive PolyChain (s : Heap) : Option Nat → List PolyDesc → Prop
  | nil : PolyChain s none []
  | cons {a : Nat} {fst lst nx : Option Nat} {ls : List LoopDesc}
      {rest : List PolyDesc} :
      s.polys a = some ⟨fst, lst, nx⟩ → LoopChain s fst ls →
      PolyChain s nx rest → PolyChain s (some a) (⟨a, ls⟩ :: rest)

/-- All loop addresses of a loop-description list. -/
def loopAddrs (ls : List LoopDesc) : List Nat := ls.map LoopDesc.addr

/-- All coordinate addresses of a loop-description list. -/
def loopCoordAddrs (ls : List LoopDesc) : List Nat :=
  (ls.map fun ld => coordAddrs ld.coords).flatten

/-- All loop descriptions of a polygon-description list. -/
def polyLoopDescs (ds : List PolyDesc) : List LoopDesc :=
  (ds.map PolyDesc.loops).flatten

/-- All polygon addresses of a polygon-description list. -/
def polyAddrs (ds : List PolyDesc) : List Nat := ds.map PolyDesc.addr

/-- All loop addresses of a polygon-description list. -/
def polyLoopAddrs (ds : List PolyDesc) : List Nat := loopAddrs (polyLoopDescs ds)

/-- All coordinate addresses of a polygon-description list. -/
def polyCoordAddrs (ds : List PolyDesc) : List Nat :=
  loopCoordAddrs (polyLoopDescs ds)

/-- Invariant of a loop under construction: the loop entity is live, its
first/last fields delimit exactly the described coordinate chain, every
chain address is below the allocation counter, and no address at or above
the counter is live. -/
def LoopInv (s : Heap) (l : Nat) (nx : Option Nat) (cs : List (Nat × GeoCoord)) : Prop :=
  ∃ fst lst, s.loops l = some ⟨fst, lst, nx⟩ ∧ CoordChain s fst cs ∧
    lst = chainLast cs ∧
    (∀ a ∈ coordAddrs cs, a < s.coordCtr) ∧
    (∀ a, s.coordCtr ≤ a → s.coords a = none)

/-- Invariant of a polygon chain under construction: the chain from the
head p0 spells out ps, cur is its final polygon, every chain address is
below the allocation counter, and no address at or above the counter is
live. -/
def PolyInv (s : Heap) (p0 cur : Nat) (ps : List Nat) : Prop :=
  PolyNext s (some p0) ps ∧ lastElem ps = some cur ∧
    (∀ a ∈ ps, a < s.polyCtr) ∧
    (∀ a, s.polyCtr ≤ a → s.polys a = none)

/-- The polygon record at address a after an operation returning a state
and an address. -/
def polyAfter (r : Option (Heap × Nat)) (a : Nat) : Option LinkedGeoPolygon :=
  r.bind fun x => x.1.polys a

/-- The loop record at address a after an operation returning a state and
an address. -/
def loopAfter (r : Option (Heap × Nat)) (a : Nat) : Option LinkedGeoLoop :=
  r.bind fun x => x.1.loops a

/-- A minimal test state: one empty polygon at address 0, one empty loop at
address 0, no coordinates. -/
def wHeap : Heap where
  coords := fun _ => none
  loops := fun a => if a = 0 then some ⟨none, none, none⟩ else none
  polys := fun a => if a = 0 then some ⟨none, none, none⟩ else none
  coordCtr := 0
  loopCtr := 1
  polyCtr := 1

/-- A fully built test structure: polygon 0 (loop 0 with coordinates 0, 1)
linked to polygon 1 (loop 1 with coordinate 2). -/
def bHeap : Heap where
  coords := fun a =>
    if a = 0 then some ⟨⟨0, 0⟩, some 1⟩
    else if a = 1 then some ⟨⟨1, 0⟩, none⟩
    else if a = 2 then some ⟨⟨5, 5⟩, none⟩
    else none
  loops := fun a =>
    if a = 0 then some ⟨some 0, some 1, none⟩
    else if a = 1 then some ⟨some 2, some 2, none⟩
    else none
  polys := fun a =>
    if a = 0 then some ⟨some 0, some 0, some 1⟩
    else if a = 1 then some ⟨some 1, some 1, none⟩
    else none
  coordCtr := 3
  loopCtr := 2
  polyCtr := 2

/-- A test state where loop 0 already carries a stale next pointer to loop
1 while polygon 0 is empty. -/
def cHeap7 : Heap where
  coords := fun _ => none
  loops := fun a =>
    if a = 0 then some ⟨none, none, some 1⟩
    else if a = 1 then some ⟨none, none, none⟩
    else none
  polys := fun a => if a = 0 then some ⟨none, none, none⟩ else none
  coordCtr := 0
  loopCtr := 2
  polyCtr := 1

/-- A test state where polygon 0 already holds loop 0 as its only (and
last) loop. -/
def cHeap10 : Heap where
  coords := fun _ => none
  loops := fun a => if a = 0 then some ⟨none, none, none⟩ else none
  polys := fun a => if a = 0 then some ⟨some 0, some 0, none⟩ else none
  coordCtr := 0
  loopCtr := 1
  polyCtr := 1

/-- A test state where polygon 0 holds loop 1 as its last loop, and loops 2
and 3 form a detached chain (2 linked to 3). -/
def dHeap : Heap where
  coords := fun _ => none
  loops := fun a =>
    if a = 1 then some ⟨none, none, none⟩
    else if a = 2 then some ⟨none, none, some 3⟩
    else if a = 3 then some ⟨none, none, none⟩
    else none
  polys := fun a => if a = 0 then some ⟨some 1, some 1, none⟩ else none
  coordCtr := 0
  loopCtr := 4
  polyCtr := 1

theorem coordChain_determ {s : Heap} {p : Option Nat} {l1 l2 : List (Nat × GeoCoord)}
    (h1 : CoordChain s p l1) (h2 : CoordChain s p l2) : l1 = l2 := by
  induction h1 generalizing l2 with
  | nil => cases h2; rfl
  | cons ha hrest ih =>
    cases h2 with
    | cons ha2 hrest2 =>
      rw [ha] at ha2
      obtain ⟨rfl, rfl⟩ : _ ∧ _ := by
        injection ha2 with h
        injection h with h1 h2
        exact ⟨h1.symm, h2.symm⟩
      rw [ih hrest2]

theorem coordChain_mem_chain {s : Heap} {p : Option Nat} {cs : List (Nat × GeoCoord)}
    {b : Nat} {w : GeoCoord} (h : CoordChain s p cs) (hm : (b, w) ∈ cs) :
    ∃ t, CoordChain s (some b) ((b, w) :: t) ∧ t.length < cs.length := by
  induction h with
  | nil => cases hm
  | cons ha hrest ih =>
    rcases List.mem_cons.mp hm with heq | hmem
    · obtain ⟨rfl, rfl⟩ := Prod.mk.injEq .. ▸ heq
      exact ⟨_, CoordChain.cons ha hrest, by simp⟩
    · obtain ⟨t, ht, hlt⟩ := ih hmem
      exact ⟨t, ht, by simpa using Nat.lt_succ_of_lt hlt⟩

theorem coordChain_nodup {s : Heap} {p : Option Nat} {cs : List (Nat × GeoCoord)}
    (h : CoordChain s p cs) : (coordAddrs cs).Nodup := by
  induction h with
  | nil => simp [coordAddrs]
  | cons ha hrest ih =>
    refine List.nodup_cons.mpr ⟨?_, ih⟩
    intro hmem
    obtain ⟨⟨b, w⟩, hbw, rfl⟩ := List.mem_map.mp hmem
    obtain ⟨t, ht, hlt⟩ := coordChain_mem_chain hrest hbw
    have := coordChain_determ (CoordChain.cons ha hrest) ht
    have hlen := congrArg List.length this
    simp at hlen
    omega

theorem coordChain_frame {s s2 : Heap} {p : Option Nat} {cs : List (Nat × GeoCoord)}
    (h : CoordChain s p cs) (hagree : ∀ x ∈ coordAddrs cs, s2.coords x = s.coords x) :
    CoordChain s2 p cs := by
  induction h with
  | nil => exact CoordChain.nil
  | cons ha hrest ih =>
    refine CoordChain.cons ?_ (ih fun x hx => hagree x ?_)
    · rw [hagree _ (by simp [coordAddrs])]; exact ha
    · simp [coordAddrs] at hx ⊢
      exact Or.inr hx

theorem chainLast_mem {cs : List (Nat × GeoCoord)} {b : Nat}
    (h : chainLast cs = some b) : b ∈ coordAddrs cs := by
  induction cs with
  | nil => simp [chainLast] at h
  | cons hd tl ih =>
    cases tl with
    | nil =>
      obtain ⟨a, v⟩ := hd
      simp [chainLast] at h
      simp [coordAddrs, h]
    | cons hd2 tl2 =>
      have : chainLast (hd2 :: tl2) = some b := h
      have := ih this
      simp [coordAddrs] at this ⊢
      exact Or.inr this

theorem chainLast_concat {cs : List (Nat × GeoCoord)} {a : Nat} {v : GeoCoord} :
    chainLast (cs ++ [(a, v)]) = some a := by
  induction cs with
  | nil => rfl
  | cons hd tl ih =>
    cases tl with
    | nil => simp [chainLast]
    | cons hd2 tl2 => simpa [chainLast] using ih

theorem coordChain_last_rec {s : Heap} {p : Option Nat} {cs : List (Nat × GeoCoord)}
    {b : Nat} (h : CoordChain s p cs) (hl : chainLast cs = some b) :
    ∃ w, s.coords b = some ⟨w, none⟩ := by
  induction h with
  | nil => simp [chainLast] at hl
  | cons ha hrest ih =>
    rename_i a v n rest
    cases rest with
    | nil =>
      simp [chainLast] at hl
      cases hrest
      exact hl ▸ ⟨v, ha⟩
    | cons r0 rs => exact ih hl

theorem coordChain_snoc {s s2 : Heap} {p : Option Nat} {cs : List (Nat × GeoCoord)}
    {b fresh : Nat} {v : GeoCoord}
    (h : CoordChain s p cs) (hl : chainLast cs = some b)
    (hb : ∀ w n, s.coords b = some ⟨w, n⟩ → s2.coords b = some ⟨w, some fresh⟩)
    (hf : s2.coords fresh = some ⟨v, none⟩)
    (hagree : ∀ x ∈ coordAddrs cs, x ≠ b → s2.coords x = s.coords x)
    (hfcs : fresh ∉ coordAddrs cs) :
    CoordChain s2 p (cs ++ [(fresh, v)]) := by
  induction h with
  | nil => simp [chainLast] at hl
  | cons ha hrest ih =>
    rename_i a v0 n rest
    cases rest with
    | nil =>
      simp [chainLast] at hl
      subst hl
      cases hrest
      exact CoordChain.cons (hb _ _ ha) (CoordChain.cons hf CoordChain.nil)
    | cons r0 rs =>
      have hbmem : b ∈ coordAddrs (r0 :: rs) := chainLast_mem hl
      have hnd := coordChain_nodup (CoordChain.cons ha hrest)
      have hanotin : a ∉ coordAddrs (r0 :: rs) := by
        have := List.nodup_cons.mp hnd
        exact this.1
      have hab : a ≠ b := fun he => hanotin (he ▸ hbmem)
      have ha2 : s2.coords a = some ⟨v0, n⟩ := by
        rw [hagree a (by simp [coordAddrs]) hab]; exact ha
      refine CoordChain.cons ha2 (ih hl ?_ ?_)
      · intro x hx hxb
        exact hagree x (by simp [coordAddrs] at hx ⊢; exact Or.inr hx) hxb
      · intro hmem
        exact hfcs (by simp [coordAddrs] at hmem ⊢; exact Or.inr hmem)

theorem lastElem_mem {α : Type} {l : List α} {b : α}
    (h : lastElem l = some b) : b ∈ l := by
  induction l with
  | nil => simp [lastElem] at h
  | cons hd tl ih =>
    cases tl with
    | nil =>
      simp [lastElem] at h
      simp [h]
    | cons hd2 tl2 =>
      have : lastElem (hd2 :: tl2) = some b := h
      simp [ih this]

theorem lastElem_concat {α : Type} (l : List α) (a : α) :
    lastElem (l ++ [a]) = some a := by
  induction l with
  | nil => rfl
  | cons hd tl ih =>
    cases tl with
    | nil => simp [lastElem]
    | cons hd2 tl2 => simpa [lastElem] using ih

theorem nextChain_determ {β : Type} {f : Nat → Option β} {nxt : β → Option Nat}
    {p : Option Nat} {l1 l2 : List Nat}
    (h1 : NextChain f nxt p l1) (h2 : NextChain f nxt p l2) : l1 = l2 := by
  induction h1 generalizing l2 with
  | nil => cases h2; rfl
  | cons ha hrest ih =>
    cases h2 with
    | cons ha2 hrest2 =>
      rw [ha] at ha2
      injection ha2 with he
      subst he
      rw [ih hrest2]

theorem nextChain_mem_chain {β : Type} {f : Nat → Option β} {nxt : β → Option Nat}
    {p : Option Nat} {ps : List Nat} {b : Nat}
    (h : NextChain f nxt p ps) (hm : b ∈ ps) :
    ∃ t, NextChain f nxt (some b) (b :: t) ∧ t.length < ps.length := by
  induction h with
  | nil => cases hm
  | cons ha hrest ih =>
    rcases List.mem_cons.mp hm with rfl | hmem
    · exact ⟨_, NextChain.cons ha hrest, by simp⟩
    · obtain ⟨t, ht, hlt⟩ := ih hmem
      exact ⟨t, ht, by simpa using Nat.lt_succ_of_lt hlt⟩

theorem nextChain_nodup {β : Type} {f : Nat → Option β} {nxt : β → Option Nat}
    {p : Option Nat} {ps : List Nat}
    (h : NextChain f nxt p ps) : ps.Nodup := by
  induction h with
  | nil => simp
  | cons ha hrest ih =>
    refine List.nodup_cons.mpr ⟨?_, ih⟩
    intro hmem
    obtain ⟨t, ht, hlt⟩ := nextChain_mem_chain hrest hmem
    have := nextChain_determ (NextChain.cons ha hrest) ht
    have hlen := congrArg List.length this
    simp at hlen
    omega

theorem nextChain_frame {β : Type} {f g : Nat → Option β} {nxt : β → Option Nat}
    {p : Option Nat} {ps : List Nat}
    (h : NextChain f nxt p ps) (hagree : ∀ x ∈ ps, g x = f x) :
    NextChain g nxt p ps := by
  induction h with
  | nil => exact NextChain.nil
  | cons ha hrest ih =>
    refine NextChain.cons ?_ (ih fun x hx => hagree x (by simp [hx]))
    rw [hagree _ (by simp)]
    exact ha

theorem nextChain_nil_inv {β : Type} {f : Nat → Option β} {nxt : β → Option Nat}
    {p : Option Nat} (h : NextChain f nxt p []) : p = none := by
  cases h; rfl

theorem nextChain_last_rec {β : Type} {f : Nat → Option β} {nxt : β → Option Nat}
    {p : Option Nat} {ps : List Nat} {b : Nat}
    (h : NextChain f nxt p ps) (hl : lastElem ps = some b) :
    ∃ rec, f b = some rec ∧ nxt rec = none := by
  induction h with
  | nil => simp [lastElem] at hl
  | cons ha hrest ih =>
    rename_i a rec rest
    cases rest with
    | nil =>
      simp [lastElem] at hl
      subst hl
      exact ⟨rec, ha, nextChain_nil_inv hrest⟩
    | cons r0 rs => exact ih hl

theorem nextChain_snoc {β : Type} {f g : Nat → Option β} {nxt : β → Option Nat}
    {p : Option Nat} {ps : List Nat} {b fresh : Nat}
    (h : NextChain f nxt p ps) (hl : lastElem ps = some b)
    (hb : ∀ rec, f b = some rec → ∃ rec2, g b = some rec2 ∧ nxt rec2 = some fresh)
    (hf : ∃ recf, g fresh = some recf ∧ nxt recf = none)
    (hagree : ∀ x ∈ ps, x ≠ b → g x = f x)
    (hfns : fresh ∉ ps) :
    NextChain g nxt p (ps ++ [fresh]) := by
  induction h with
  | nil => simp [lastElem] at hl
  | cons ha hrest ih =>
    rename_i a rec rest
    cases rest with
    | nil =>
      simp [lastElem] at hl
      subst hl
      obtain ⟨rec2, hrec2, hnx2⟩ := hb rec ha
      obtain ⟨recf, hrecf, hnxf⟩ := hf
      refine NextChain.cons hrec2 ?_
      rw [hnx2]
      refine NextChain.cons hrecf ?_
      rw [hnxf]
      exact NextChain.nil
    | cons r0 rs =>
      have hbmem : b ∈ r0 :: rs := lastElem_mem hl
      have hnd := nextChain_nodup (NextChain.cons ha hrest)
      have hanotin : a ∉ r0 :: rs := (List.nodup_cons.mp hnd).1
      have hab : a ≠ b := fun he => hanotin (he ▸ hbmem)
      have ha2 : g a = some rec := by rw [hagree a (by simp) hab]; exact ha
      refine NextChain.cons ha2 (ih hl ?_ ?_)
      · intro x hx hxb
        exact hagree x (by simp [hx]) hxb
      · intro hmem
        exact hfns (by simp [hmem])

theorem hupd_same {α : Type} (f : Nat → Option α) (a : Nat) (v : α) :
    hupd f a v a = some v := by simp [hupd]

theorem hupd_other {α : Type} (f : Nat → Option α) (a : Nat) (v : α) {x : Nat}
    (h : x ≠ a) : hupd f a v x = f x := by simp [hupd, h]

theorem hdel_same {α : Type} (f : Nat → Option α) (a : Nat) :
    hdel f a a = none := by simp [hdel]

theorem hdel_other {α : Type} (f : Nat → Option α) (a : Nat) {x : Nat}
    (h : x ≠ a) : hdel f a x = f x := by simp [hdel, h]

theorem chainLast_cons_some (c0 : Nat × GeoCoord) (cs : List (Nat × GeoCoord)) :
    ∃ b, chainLast (c0 :: cs) = some b := by
  induction cs generalizing c0 with
  | nil => exact ⟨c0.1, by obtain ⟨a, v⟩ := c0; rfl⟩
  | cons c1 cs2 ih =>
    obtain ⟨b, hb⟩ := ih c1
    exact ⟨b, hb⟩

theorem addLinkedCoord_step {s : Heap} {l : Nat} {nx : Option Nat}
    {cs : List (Nat × GeoCoord)} (v : GeoCoord) (h : LoopInv s l nx cs) :
    ∃ s2, addLinkedCoord s l v = some (s2, s.coordCtr) ∧
      LoopInv s2 l nx (cs ++ [(s.coordCtr, v)]) := by
  obtain ⟨fst, lst, hl, hchain, hlast, hbound, hwf⟩ := h
  cases cs with
  | nil =>
    have hfst : fst = none := by cases hchain; rfl
    subst hfst
    simp [chainLast] at hlast
    subst hlast
    refine ⟨{ s with
        coords := hupd s.coords s.coordCtr ⟨v, none⟩,
        coordCtr := s.coordCtr + 1,
        loops := hupd s.loops l ⟨some s.coordCtr, some s.coordCtr, nx⟩ }, ?_, ?_⟩
    · simp [addLinkedCoord, hl]
    · refine ⟨some s.coordCtr, some s.coordCtr, hupd_same .., ?_, rfl, ?_, ?_⟩
      · exact CoordChain.cons (hupd_same ..) CoordChain.nil
      · intro a ha
        simp [coordAddrs] at ha
        dsimp only
        omega
      · intro a ha
        dsimp only at ha ⊢
        have hne : a ≠ s.coordCtr := by omega
        rw [hupd_other _ _ _ hne]
        exact hwf a (by omega)
  | cons c0 cs2 =>
    obtain ⟨b, hb⟩ := chainLast_cons_some c0 cs2
    rw [hb] at hlast
    subst hlast
    obtain ⟨w, hcb⟩ := coordChain_last_rec hchain hb
    have hbmem : b ∈ coordAddrs (c0 :: cs2) := chainLast_mem hb
    have hblt : b < s.coordCtr := hbound b hbmem
    have hbne : b ≠ s.coordCtr := by omega
    obtain ⟨a0, v0⟩ := c0
    have hfst : fst = some a0 := by cases hchain; rfl
    subst hfst
    refine ⟨{ s with
        coords := hupd (hupd s.coords s.coordCtr ⟨v, none⟩) b ⟨w, some s.coordCtr⟩,
        coordCtr := s.coordCtr + 1,
        loops := hupd s.loops l ⟨some a0, some s.coordCtr, nx⟩ }, ?_, ?_⟩
    · simp [addLinkedCoord, hl, hupd_other _ _ _ hbne, hcb]
    · refine ⟨some a0, some s.coordCtr, hupd_same .., ?_, by rw [chainLast_concat], ?_, ?_⟩
      · refine coordChain_snoc hchain hb ?_ ?_ ?_ ?_
        · intro w2 n2 hw2
          rw [hcb] at hw2
          injection hw2 with hw2
          injection hw2 with hw2a hw2b
          subst hw2a
          exact hupd_same ..
        · dsimp only
          rw [hupd_other _ _ _ (Ne.symm hbne), hupd_same]
        · intro x hx hxb
          have hxlt : x < s.coordCtr := hbound x hx
          dsimp only
          rw [hupd_other _ _ _ hxb, hupd_other _ _ _ (by omega : x ≠ s.coordCtr)]
        · intro hmem
          have := hbound _ hmem
          omega
      · intro a ha
        simp only [coordAddrs, List.map_append, List.mem_append] at ha
        dsimp only
        rcases ha with ha | ha
        · have := hbound a ha
          omega
        · simp [coordAddrs] at ha
          omega
      · intro a ha
        dsimp only at ha ⊢
        have h1 : a ≠ b := by omega
        have h2 : a ≠ s.coordCtr := by omega
        rw [hupd_other _ _ _ h1, hupd_other _ _ _ h2]
        exact hwf a (by omega)

theorem appendCoords_inv {l : Nat} {nx : Option Nat} :
    ∀ (vs : List GeoCoord) (s : Heap) (cs : List (Nat × GeoCoord)),
    LoopInv s l nx cs →
    ∃ s2 ds, appendCoords l s vs = some s2 ∧ LoopInv s2 l nx (cs ++ ds) ∧
      ds.map Prod.snd = vs := by
  intro vs
  induction vs with
  | nil =>
    intro s cs h
    exact ⟨s, [], rfl, by simpa using h, rfl⟩
  | cons v vs2 ih =>
    intro s cs h
    obtain ⟨s1, heq, hinv⟩ := addLinkedCoord_step v h
    obtain ⟨s2, ds2, heq2, hinv2, hmap2⟩ := ih s1 (cs ++ [(s.coordCtr, v)]) hinv
    refine ⟨s2, (s.coordCtr, v) :: ds2, ?_, ?_, ?_⟩
    · simp [appendCoords, heq, heq2]
    · simpa [List.append_assoc] using hinv2
    · simp [hmap2]

theorem countCoordChain_of_chain {s : Heap} {p : Option Nat}
    {cs : List (Nat × GeoCoord)} (h : CoordChain s p cs) :
    countCoordChain s cs.length p = some cs.length := by
  induction h with
  | nil => rfl
  | cons ha hrest ih => simp [countCoordChain, ha, ih]

theorem readCoordChain_of_chain {s : Heap} {p : Option Nat}
    {cs : List (Nat × GeoCoord)} (h : CoordChain s p cs) :
    readCoordChain s cs.length p = some (cs.map Prod.snd) := by
  induction h with
  | nil => rfl
  | cons ha hrest ih => simp [readCoordChain, ha, ih]

theorem countLoopChain_of_chain {s : Heap} {p : Option Nat} {ls : List Nat}
    (h : LoopNext s p ls) : countLoopChain s ls.length p = some ls.length := by
  induction h with
  | nil => rfl
  | cons ha hrest ih => simp [countLoopChain, ha, ih]

theorem countPolyChain_of_chain {s : Heap} {p : Option Nat} {ps : List Nat}
    (h : PolyNext s p ps) : countPolyChain s ps.length p = some ps.length := by
  induction h with
  | nil => rfl
  | cons ha hrest ih => simp [countPolyChain, ha, ih]

/-- C1: for every sequence of N append-coordinate calls on a fresh loop
(first and last unset, allocation counter well formed), all N calls
succeed, count-coordinates on the loop returns N, and a forward traversal
of the loop's coordinate chain via first/next yields exactly the N points
in call order. -/
theorem c1_append_coords_count_and_read (s : Heap) (l : Nat) (nx : Option Nat)
    (vs : List GeoCoord)
    (hl : s.loops l = some ⟨none, none, nx⟩)
    (hwf : ∀ a, s.coordCtr ≤ a → s.coords a = none) :
    ∃ s2, appendCoords l s vs = some s2 ∧
      countLinkedCoords vs.length s2 l = some vs.length ∧
      readLinkedCoords vs.length s2 l = some vs := by
  have hinv : LoopInv s l nx [] :=
    ⟨none, none, hl, CoordChain.nil, rfl, by simp [coordAddrs], hwf⟩
  obtain ⟨s2, ds, happ, hinv2, hmap⟩ := appendCoords_inv vs s [] hinv
  obtain ⟨fst, lst, hl2, hchain, hlast, hbound, hwf2⟩ := hinv2
  simp only [List.nil_append] at hl2 hchain hlast hbound
  have hlen : ds.length = vs.length := by rw [← hmap, List.length_map]
  refine ⟨s2, happ, ?_, ?_⟩
  · rw [countLinkedCoords, hl2]
    rw [← hlen]
    exact countCoordChain_of_chain hchain
  · rw [readLinkedCoords, hl2]
    rw [← hlen, ← hmap]
    exact readCoordChain_of_chain hchain

/-- Witness for c1_append_coords_count_and_read: three concrete appends on
the fresh loop of wHeap. -/
theorem c1_witness :
    ∃ s2, appendCoords 0 wHeap [⟨0, 0⟩, ⟨1, 0⟩, ⟨1, 1⟩] = some s2 ∧
      countLinkedCoords 3 s2 0 = some 3 ∧
      readLinkedCoords 3 s2 0 = some [⟨0, 0⟩, ⟨1, 0⟩, ⟨1, 1⟩] :=
  c1_append_coords_count_and_read wHeap 0 none [⟨0, 0⟩, ⟨1, 0⟩, ⟨1, 1⟩]
    rfl (fun _ _ => rfl)

theorem addNewLinkedPolygon_step {s : Heap} {p0 cur : Nat} {ps : List Nat}
    (h : PolyInv s p0 cur ps) :
    ∃ s2, addNewLinkedPolygon s cur = some (s2, s.polyCtr) ∧
      PolyInv s2 p0 s.polyCtr (ps ++ [s.polyCtr]) := by
  obtain ⟨hchain, hlast, hbound, hwf⟩ := h
  obtain ⟨rec, hrec, hnext⟩ := nextChain_last_rec hchain hlast
  have hcur : cur ∈ ps := lastElem_mem hlast
  have hclt : cur < s.polyCtr := hbound cur hcur
  have hcne : cur ≠ s.polyCtr := by omega
  refine ⟨{ s with
      polys := hupd (hupd s.polys s.polyCtr ⟨none, none, none⟩) cur
        { rec with next := some s.polyCtr },
      polyCtr := s.polyCtr + 1 }, ?_, ?_, ?_, ?_, ?_⟩
  · simp [addNewLinkedPolygon, hrec, hnext]
  · refine nextChain_snoc hchain hlast ?_ ?_ ?_ ?_
    · intro rec2 hrec2
      rw [hrec] at hrec2
      injection hrec2 with he
      subst he
      exact ⟨_, hupd_same .., rfl⟩
    · refine ⟨⟨none, none, none⟩, ?_, rfl⟩
      dsimp only
      rw [hupd_other _ _ _ (Ne.symm hcne), hupd_same]
    · intro x hx hxc
      have : x < s.polyCtr := hbound x hx
      dsimp only
      rw [hupd_other _ _ _ hxc, hupd_other _ _ _ (by omega : x ≠ s.polyCtr)]
    · intro hmem
      have := hbound _ hmem
      omega
  · exact lastElem_concat ..
  · intro a ha
    dsimp only
    simp only [List.mem_append, List.mem_singleton] at ha
    rcases ha with ha | ha
    · have := hbound a ha
      omega
    · omega
  · intro a ha
    dsimp only at ha ⊢
    have h1 : a ≠ cur := by omega
    have h2 : a ≠ s.polyCtr := by omega
    rw [hupd_other _ _ _ h1, hupd_other _ _ _ h2]
    exact hwf a (by omega)

theorem appendPolys_inv {p0 : Nat} :
    ∀ (k : Nat) (s : Heap) (cur : Nat) (ps : List Nat), PolyInv s p0 cur ps →
    ∃ s2 q bs, appendPolys s cur k = some (s2, q) ∧ PolyInv s2 p0 q (ps ++ bs) ∧
      bs.length = k := by
  intro k
  induction k with
  | zero =>
    intro s cur ps h
    exact ⟨s, cur, [], rfl, by simpa using h, rfl⟩
  | succ k2 ih =>
    intro s cur ps h
    obtain ⟨s1, heq, hinv⟩ := addNewLinkedPolygon_step h
    obtain ⟨s2, q, bs, heq2, hinv2, hlen⟩ := ih s1 s.polyCtr (ps ++ [s.polyCtr]) hinv
    refine ⟨s2, q, s.polyCtr :: bs, ?_, ?_, ?_⟩
    · simp [appendPolys, heq, heq2]
    · simpa [List.append_assoc] using hinv2
    · simp [hlen]

/-- C6: for every K, after a sequence of K addNewLinkedPolygon calls
starting from one externally allocated polygon (each call applied to the
polygon returned by the previous one), countLinkedPolygons on the first
polygon returns K + 1. -/
theorem c6_append_polys_count (s : Heap) (p : Nat) (rec : LinkedGeoPolygon)
    (k : Nat) (hp : s.polys p = some rec) (hnext : rec.next = none)
    (hwf : ∀ a, s.polyCtr ≤ a → s.polys a = none) :
    ∃ s2 q, appendPolys s p k = some (s2, q) ∧
      countLinkedPolygons (k + 1) s2 (some p) = some (k + 1) := by
  have hplt : p < s.polyCtr := by
    by_contra hc
    rw [hwf p (by omega)] at hp
    cases hp
  have hinv : PolyInv s p p [p] := by
    refine ⟨NextChain.cons hp ?_, rfl, ?_, hwf⟩
    · rw [hnext]; exact NextChain.nil
    · intro a ha
      simp at ha
      omega
  obtain ⟨s2, q, bs, heq, ⟨hchain, _, _, _⟩, hlen⟩ := appendPolys_inv k s p [p] hinv
  refine ⟨s2, q, heq, ?_⟩
  have hc := countPolyChain_of_chain hchain
  have hlen2 : (p :: bs).length = k + 1 := by simp [hlen]
  rw [List.cons_append, List.nil_append] at hc
  rw [hlen2] at hc
  exact hc

/-- Witness for c6_append_polys_count: two addNewLinkedPolygon calls on the
polygon of wHeap give a chain of three polygons. -/
theorem c6_witness :
    ∃ s2 q, appendPolys wHeap 0 2 = some (s2, q) ∧
      countLinkedPolygons 3 s2 (some 0) = some 3 :=
  c6_append_polys_count wHeap 0 ⟨none, none, none⟩ 2 rfl rfl
    (fun a ha => by
      have ha2 : 1 ≤ a := ha
      simp only [wHeap]
      rw [if_neg (by omega)])

/-- C3: for every live polygon p with p.next unset (the assertion-checked
precondition), addNewLinkedPolygon allocates a new zero-initialized
polygon entity (first, last, next all none), sets p.next to it, and
returns that new polygon; nothing else changes. -/
theorem c3_add_new_polygon_spec (s : Heap) (p : Nat) (rec : LinkedGeoPolygon)
    (hp : s.polys p = some rec) (hnext : rec.next = none)
    (hwf : ∀ a, s.polyCtr ≤ a → s.polys a = none) :
    ∃ s2, addNewLinkedPolygon s p = some (s2, s.polyCtr) ∧
      s2.polys s.polyCtr = some ⟨none, none, none⟩ ∧
      s2.polys p = some { rec with next := some s.polyCtr } ∧
      (∀ a, a ≠ p → a ≠ s.polyCtr → s2.polys a = s.polys a) ∧
      s2.loops = s.loops ∧ s2.coords = s.coords := by
  have hplt : p < s.polyCtr := by
    by_contra hc
    rw [hwf p (by omega)] at hp
    cases hp
  have hpne : p ≠ s.polyCtr := by omega
  refine ⟨{ s with
      polys := hupd (hupd s.polys s.polyCtr ⟨none, none, none⟩) p
        { rec with next := some s.polyCtr },
      polyCtr := s.polyCtr + 1 }, ?_, ?_, ?_, ?_, rfl, rfl⟩
  · simp [addNewLinkedPolygon, hp, hnext]
  · dsimp only
    rw [hupd_other _ _ _ (Ne.symm hpne), hupd_same]
  · dsimp only
    rw [hupd_same]
  · intro a h1 h2
    dsimp only
    rw [hupd_other _ _ _ h1, hupd_other _ _ _ h2]

/-- Witness for c3_add_new_polygon_spec: one call on the polygon of
wHeap. -/
theorem c3_witness :
    ∃ s2, addNewLinkedPolygon wHeap 0 = some (s2, 1) ∧
      s2.polys 1 = some ⟨none, none, none⟩ ∧
      s2.polys 0 = some ⟨none, none, some 1⟩ := by
  obtain ⟨s2, h1, h2, h3, -⟩ :=
    c3_add_new_polygon_spec wHeap 0 ⟨none, none, none⟩ rfl rfl
      (fun a ha => by
        have ha2 : 1 ≤ a := ha
        simp only [wHeap]
        rw [if_neg (by omega)])
  exact ⟨s2, h1, h2, h3⟩

/-- C4: for every live polygon p and loop address l, addLinkedLoop behaves
as: if p.last is none then p.first is also none (asserted) and p.first is
set to l; otherwise the old p.last's next is set to l; in both cases
p.last is set to l and l is returned. -/
theorem c4_add_linked_loop_spec (s : Heap) (p l : Nat) (rec : LinkedGeoPolygon)
    (hp : s.polys p = some rec)
    (hassert : rec.last = none → rec.first = none)
    (hlive : ∀ t, rec.last = some t → ∃ tl, s.loops t = some tl) :
    ∃ s2, addLinkedLoop s p l = some (s2, l) ∧
      s2.polys p = some ⟨(if rec.last = none then some l else rec.first),
        some l, rec.next⟩ ∧
      (rec.last = none → s2.loops = s.loops) ∧
      (∀ t tl, rec.last = some t → s.loops t = some tl →
        s2.loops t = some { tl with next := some l } ∧
        ∀ a, a ≠ t → s2.loops a = s.loops a) ∧
      (∀ a, a ≠ p → s2.polys a = s.polys a) ∧
      s2.coords = s.coords := by
  cases hlast : rec.last with
  | none =>
    have hfirst : rec.first = none := hassert hlast
    refine ⟨{ s with
        polys := hupd s.polys p { rec with first := some l, last := some l } },
      ?_, ?_, fun _ => rfl, ?_, ?_, rfl⟩
    · simp [addLinkedLoop, hp, hlast, hfirst]
    · dsimp only
      rw [hupd_same]
      simp [hlast, hfirst]
    · intro t tl ht
      cases ht
    · intro a ha
      dsimp only
      rw [hupd_other _ _ _ ha]
  | some t =>
    obtain ⟨tl, htl⟩ := hlive t hlast
    refine ⟨{ s with
        loops := hupd s.loops t { tl with next := some l },
        polys := hupd s.polys p { rec with last := some l } },
      ?_, ?_, ?_, ?_, ?_, rfl⟩
    · simp [addLinkedLoop, hp, hlast, htl]
    · dsimp only
      rw [hupd_same]
      simp [hlast]
    · intro h
      cases h
    · intro t2 tl2 ht2 htl2
      injection ht2 with ht2
      subst ht2
      rw [htl] at htl2
      injection htl2 with htl2
      subst htl2
      refine ⟨?_, ?_⟩
      · dsimp only
        rw [hupd_same]
      · intro a ha
        dsimp only
        rw [hupd_other _ _ _ ha]
    · intro a ha
      dsimp only
      rw [hupd_other _ _ _ ha]

/-- Witness for c4_add_linked_loop_spec: attaching loop 2 to the polygon of
dHeap, whose current last loop is 1. -/
theorem c4_witness :
    ∃ s2, addLinkedLoop dHeap 0 2 = some (s2, 2) ∧
      s2.polys 0 = some ⟨some 1, some 2, none⟩ ∧
      s2.loops 1 = some ⟨none, none, some 2⟩ := by
  obtain ⟨s2, h1, h2, -, h4, -⟩ :=
    c4_add_linked_loop_spec dHeap 0 2 ⟨some 1, some 1, none⟩ rfl
      (fun h => absurd h (by simp))
      (fun t ht => by
        injection ht with ht
        subst ht
        exact ⟨⟨none, none, none⟩, rfl⟩)
  exact ⟨s2, h1, h2, (h4 1 ⟨none, none, none⟩ rfl rfl).1⟩

/-- C5: for every live loop l and point v, addLinkedCoord allocates a
coordinate node holding a copy of v with next none; if l.last is none then
l.first is none (asserted) and l.first is set to the node, otherwise the
old l.last's next is set to the node; l.last is set to the node
unconditionally, and the node is returned. -/
theorem c5_add_linked_coord_spec (s : Heap) (l : Nat) (v : GeoCoord)
    (rec : LinkedGeoLoop)
    (hl : s.loops l = some rec)
    (hassert : rec.last = none → rec.first = none)
    (hlive : ∀ t, rec.last = some t → ∃ tc, s.coords t = some tc)
    (hwf : ∀ a, s.coordCtr ≤ a → s.coords a = none) :
    ∃ s2, addLinkedCoord s l v = some (s2, s.coordCtr) ∧
      s2.coords s.coordCtr = some ⟨v, none⟩ ∧
      s2.loops l = some ⟨(if rec.last = none then some s.coordCtr else rec.first),
        some s.coordCtr, rec.next⟩ ∧
      (rec.last = none → ∀ a, a ≠ s.coordCtr → s2.coords a = s.coords a) ∧
      (∀ t tc, rec.last = some t → s.coords t = some tc →
        s2.coords t = some { tc with next := some s.coordCtr } ∧
        ∀ a, a ≠ t → a ≠ s.coordCtr → s2.coords a = s.coords a) ∧
      (∀ a, a ≠ l → s2.loops a = s.loops a) ∧
      s2.polys = s.polys := by
  cases hlast : rec.last with
  | none =>
    have hfirst : rec.first = none := hassert hlast
    refine ⟨{ s with
        coords := hupd s.coords s.coordCtr ⟨v, none⟩,
        coordCtr := s.coordCtr + 1,
        loops := hupd s.loops l { rec with first := some s.coordCtr, last := some s.coordCtr } },
      ?_, ?_, ?_, ?_, ?_, ?_, rfl⟩
    · simp [addLinkedCoord, hl, hlast, hfirst]
    · dsimp only
      rw [hupd_same]
    · dsimp only
      rw [hupd_same]
      simp [hlast, hfirst]
    · intro _ a ha
      dsimp only
      rw [hupd_other _ _ _ ha]
    · intro t tc ht
      cases ht
    · intro a ha
      dsimp only
      rw [hupd_other _ _ _ ha]
  | some t =>
    obtain ⟨tc, htc⟩ := hlive t hlast
    have htlt : t < s.coordCtr := by
      by_contra hc
      rw [hwf t (by omega)] at htc
      cases htc
    have htne : t ≠ s.coordCtr := by omega
    refine ⟨{ s with
        coords := hupd (hupd s.coords s.coordCtr ⟨v, none⟩) t
          { tc with next := some s.coordCtr },
        coordCtr := s.coordCtr + 1,
        loops := hupd s.loops l { rec with last := some s.coordCtr } },
      ?_, ?_, ?_, ?_, ?_, ?_, rfl⟩
    · simp [addLinkedCoord, hl, hlast, hupd_other _ _ _ htne, htc]
    · dsimp only
      rw [hupd_other _ _ _ (Ne.symm htne), hupd_same]
    · dsimp only
      rw [hupd_same]
      simp [hlast]
    · intro h
      cases h
    · intro t2 tc2 ht2 htc2
      injection ht2 with ht2
      subst ht2
      rw [htc] at htc2
      injection htc2 with htc2
      subst htc2
      refine ⟨?_, ?_⟩
      · dsimp only
        rw [hupd_same]
      · intro a ha1 ha2
        dsimp only
        rw [hupd_other _ _ _ ha1, hupd_other _ _ _ ha2]
    · intro a ha
      dsimp only
      rw [hupd_other _ _ _ ha]

/-- Witness for c5_add_linked_coord_spec: appending a point to loop 1 of
bHeap, whose current last coordinate node is 2. -/
theorem c5_witness :
    ∃ s2, addLinkedCoord bHeap 1 ⟨7, 8⟩ = some (s2, 3) ∧
      s2.coords 3 = some ⟨⟨7, 8⟩, none⟩ ∧
      s2.loops 1 = some ⟨some 2, some 3, none⟩ ∧
      s2.coords 2 = some ⟨⟨5, 5⟩, some 3⟩ := by
  obtain ⟨s2, h1, h2, h3, -, h5, -⟩ :=
    c5_add_linked_coord_spec bHeap 1 ⟨7, 8⟩ ⟨some 2, some 2, none⟩ rfl
      (fun h => absurd h (by simp))
      (fun t ht => by
        injection ht with ht
        subst ht
        exact ⟨⟨⟨5, 5⟩, none⟩, rfl⟩)
      (fun a ha => by
        have ha2 : 3 ≤ a := ha
        simp only [bHeap]
        rw [if_neg (by omega), if_neg (by omega), if_neg (by omega)])
  exact ⟨s2, h1, h2, h3, (h5 2 ⟨⟨5, 5⟩, none⟩ rfl rfl).1⟩

/-- C8: a freshly constructed loop or polygon has first and last both
none (calloc zero-initialization), and after exactly one append to it
(addLinkedLoop on a polygon, addLinkedCoord on a loop) first and last both
reference the single appended node, preserving the emptiness invariant. -/
theorem c8_emptiness_invariant (s : Heap) :
    (∀ p rec, s.polys p = some rec → rec.next = none →
      (∀ a, s.polyCtr ≤ a → s.polys a = none) →
      ∃ s2, addNewLinkedPolygon s p = some (s2, s.polyCtr) ∧
        s2.polys s.polyCtr = some ⟨none, none, none⟩) ∧
    (∀ p nx, s.polys p = some ⟨none, none, nx⟩ →
      ∃ s2, addNewLinkedLoop s p = some (s2, s.loopCtr) ∧
        s2.loops s.loopCtr = some ⟨none, none, none⟩ ∧
        s2.polys p = some ⟨some s.loopCtr, some s.loopCtr, nx⟩) ∧
    (∀ p l nx, s.polys p = some ⟨none, none, nx⟩ →
      ∃ s2, addLinkedLoop s p l = some (s2, l) ∧
        s2.polys p = some ⟨some l, some l, nx⟩) ∧
    (∀ l v nx, s.loops l = some ⟨none, none, nx⟩ →
      ∃ s2, addLinkedCoord s l v = some (s2, s.coordCtr) ∧
        s2.loops l = some ⟨some s.coordCtr, some s.coordCtr, nx⟩ ∧
        s2.coords s.coordCtr = some ⟨v, none⟩) := by
  refine ⟨?_, ?_, ?_, ?_⟩
  · intro p rec hp hnext hwf
    have hplt : p < s.polyCtr := by
      by_contra hc
      rw [hwf p (by omega)] at hp
      cases hp
    have hpne : p ≠ s.polyCtr := by omega
    refine ⟨{ s with
        polys := hupd (hupd s.polys s.polyCtr ⟨none, none, none⟩) p
          { rec with next := some s.polyCtr },
        polyCtr := s.polyCtr + 1 }, ?_, ?_⟩
    · simp [addNewLinkedPolygon, hp, hnext]
    · dsimp only
      rw [hupd_other _ _ _ (Ne.symm hpne), hupd_same]
  · intro p nx hp
    refine ⟨{ s with
        loops := hupd s.loops s.loopCtr ⟨none, none, none⟩,
        loopCtr := s.loopCtr + 1,
        polys := hupd s.polys p ⟨some s.loopCtr, some s.loopCtr, nx⟩ }, ?_, ?_, ?_⟩
    · simp [addNewLinkedLoop, addLinkedLoop, hp]
    · dsimp only
      rw [hupd_same]
    · dsimp only
      rw [hupd_same]
  · intro p l nx hp
    refine ⟨{ s with
        polys := hupd s.polys p ⟨some l, some l, nx⟩ }, ?_, ?_⟩
    · simp [addLinkedLoop, hp]
    · dsimp only
      rw [hupd_same]
  · intro l v nx hl
    refine ⟨{ s with
        coords := hupd s.coords s.coordCtr ⟨v, none⟩,
        coordCtr := s.coordCtr + 1,
        loops := hupd s.loops l ⟨some s.coordCtr, some s.coordCtr, nx⟩ }, ?_, ?_, ?_⟩
    · simp [addLinkedCoord, hl]
    · dsimp only
      rw [hupd_same]
    · dsimp only
      rw [hupd_same]

/-- Witness for c8_emptiness_invariant: one new loop on the empty polygon
of wHeap, and one coordinate on the empty loop of wHeap. -/
theorem c8_witness :
    (∃ s2, addNewLinkedLoop wHeap 0 = some (s2, 1) ∧
      s2.loops 1 = some ⟨none, none, none⟩ ∧
      s2.polys 0 = some ⟨some 1, some 1, none⟩) ∧
    (∃ s2, addLinkedCoord wHeap 0 ⟨2, 3⟩ = some (s2, 0) ∧
      s2.loops 0 = some ⟨some 0, some 0, none⟩ ∧
      s2.coords 0 = some ⟨⟨2, 3⟩, none⟩) :=
  ⟨(c8_emptiness_invariant wHeap).2.1 0 none rfl,
   (c8_emptiness_invariant wHeap).2.2.2 0 ⟨2, 3⟩ none rfl⟩

/-- C9: the three count operations are pure by construction in this
embedding (they read the heap and return only a number); they return the
number of nodes of the corresponding chain, and 0 for an absent chain (a
NULL starting polygon, or a first pointer that is none). -/
theorem c9_count_operations (s : Heap) :
    (∀ fuel, countLinkedPolygons fuel s none = some 0) ∧
    (∀ p ps, PolyNext s (some p) ps →
      countLinkedPolygons ps.length s (some p) = some ps.length) ∧
    (∀ p rec, s.polys p = some rec → rec.first = none →
      ∀ fuel, countLinkedLoops fuel s p = some 0) ∧
    (∀ p rec ls, s.polys p = some rec → LoopNext s rec.first ls →
      countLinkedLoops ls.length s p = some ls.length) ∧
    (∀ l rec, s.loops l = some rec → rec.first = none →
      ∀ fuel, countLinkedCoords fuel s l = some 0) ∧
    (∀ l rec cs, s.loops l = some rec → CoordChain s rec.first cs →
      countLinkedCoords cs.length s l = some cs.length) := by
  refine ⟨?_, ?_, ?_, ?_, ?_, ?_⟩
  · intro fuel
    cases fuel <;> rfl
  · intro p ps h
    exact countPolyChain_of_chain h
  · intro p rec hp hfirst fuel
    rw [countLinkedLoops, hp]
    show countLoopChain s fuel rec.first = some 0
    rw [hfirst]
    cases fuel <;> rfl
  · intro p rec ls hp h
    rw [countLinkedLoops, hp]
    show countLoopChain s ls.length rec.first = some ls.length
    exact countLoopChain_of_chain h
  · intro l rec hl hfirst fuel
    rw [countLinkedCoords, hl]
    show countCoordChain s fuel rec.first = some 0
    rw [hfirst]
    cases fuel <;> rfl
  · intro l rec cs hl h
    rw [countLinkedCoords, hl]
    show countCoordChain s cs.length rec.first = some cs.length
    exact countCoordChain_of_chain h

/-- Witness for c9_count_operations: counts over the built structure of
bHeap and over a NULL pointer. -/
theorem c9_witness :
    countLinkedPolygons 5 bHeap none = some 0 ∧
    countLinkedPolygons 2 bHeap (some 0) = some 2 ∧
    countLinkedCoords 2 bHeap 0 = some 2 := by
  refine ⟨(c9_count_operations bHeap).1 5, ?_, ?_⟩
  · refine (c9_count_operations bHeap).2.1 0 [0, 1] ?_
    exact NextChain.cons rfl (NextChain.cons rfl NextChain.nil)
  · refine (c9_count_operations bHeap).2.2.2.2.2 0 ⟨some 0, some 1, none⟩
      [(0, ⟨0, 0⟩), (1, ⟨1, 0⟩)] rfl ?_
    exact CoordChain.cons rfl (CoordChain.cons rfl CoordChain.nil)

/-- C7 counterexample: the claim states that after any append operation the
entity referenced by the head's last pointer has next none.  Attaching
loop 0 of cHeap7, which carries a stale next pointer to loop 1, to the
empty polygon 0 succeeds, makes the polygon's last reference loop 0, and
leaves loop 0's next equal to some 1, not none. -/
theorem c7_counterexample :
    polyAfter (addLinkedLoop cHeap7 0 0) 0 = some ⟨some 0, some 0, none⟩ ∧
    loopAfter (addLinkedLoop cHeap7 0 0) 0 = some ⟨none, none, some 1⟩ ∧
    (some 1 : Option Nat) ≠ none :=
  ⟨rfl, rfl, by simp⟩

/-- C7 (amended): immediately after addLinkedCoord or addNewLinkedLoop
completes, the entity referenced by the head's last pointer has next
none unconditionally; after addLinkedLoop the same holds provided the
attached loop's next is none at the call and the loop is not already the
polygon's last (with a stale next, or when re-attaching the current last,
the tail entity keeps or acquires a non-none next, as the counterexample
shows). -/
theorem c7_amended_last_next_none (s : Heap) :
    (∀ l v rec, s.loops l = some rec →
      (rec.last = none → rec.first = none) →
      (∀ t, rec.last = some t → ∃ tc, s.coords t = some tc) →
      (∀ a, s.coordCtr ≤ a → s.coords a = none) →
      ∃ s2 c rec2 cr, addLinkedCoord s l v = some (s2, c) ∧
        s2.loops l = some rec2 ∧ rec2.last = some c ∧
        s2.coords c = some cr ∧ cr.next = none) ∧
    (∀ p rec, s.polys p = some rec →
      (rec.last = none → rec.first = none) →
      (∀ t, rec.last = some t → ∃ tl, s.loops t = some tl) →
      (∀ a, s.loopCtr ≤ a → s.loops a = none) →
      ∃ s2 q rec2 lr, addNewLinkedLoop s p = some (s2, q) ∧
        s2.polys p = some rec2 ∧ rec2.last = some q ∧
        s2.loops q = some lr ∧ lr.next = none) ∧
    (∀ p l rec lrec, s.polys p = some rec → s.loops l = some lrec →
      lrec.next = none → rec.last ≠ some l →
      (rec.last = none → rec.first = none) →
      (∀ t, rec.last = some t → ∃ tl, s.loops t = some tl) →
      ∃ s2 rec2, addLinkedLoop s p l = some (s2, l) ∧
        s2.polys p = some rec2 ∧ rec2.last = some l ∧
        s2.loops l = some lrec) := by
  refine ⟨?_, ?_, ?_⟩
  · intro l v rec hl hassert hlive hwf
    cases hlast : rec.last with
    | none =>
      have hfirst : rec.first = none := hassert hlast
      refine ⟨{ s with
          coords := hupd s.coords s.coordCtr ⟨v, none⟩,
          coordCtr := s.coordCtr + 1,
          loops := hupd s.loops l
            { rec with first := some s.coordCtr, last := some s.coordCtr } },
        s.coordCtr, ⟨some s.coordCtr, some s.coordCtr, rec.next⟩, ⟨v, none⟩,
        ?_, ?_, rfl, ?_, rfl⟩
      · simp [addLinkedCoord, hl, hlast, hfirst]
      · dsimp only
        rw [hupd_same]
      · dsimp only
        rw [hupd_same]
    | some t =>
      obtain ⟨tc, htc⟩ := hlive t hlast
      have htlt : t < s.coordCtr := by
        by_contra hc
        rw [hwf t (by omega)] at htc
        cases htc
      have htne : t ≠ s.coordCtr := by omega
      refine ⟨{ s with
          coords := hupd (hupd s.coords s.coordCtr ⟨v, none⟩) t
            { tc with next := some s.coordCtr },
          coordCtr := s.coordCtr + 1,
          loops := hupd s.loops l { rec with last := some s.coordCtr } },
        s.coordCtr, ⟨rec.first, some s.coordCtr, rec.next⟩, ⟨v, none⟩,
        ?_, ?_, rfl, ?_, rfl⟩
      · simp [addLinkedCoord, hl, hlast, hupd_other _ _ _ htne, htc]
      · dsimp only
        rw [hupd_same]
      · dsimp only
        rw [hupd_other _ _ _ (Ne.symm htne), hupd_same]
  · intro p rec hp hassert hlive hwf
    cases hlast : rec.last with
    | none =>
      have hfirst : rec.first = none := hassert hlast
      refine ⟨{ s with
          loops := hupd s.loops s.loopCtr ⟨none, none, none⟩,
          loopCtr := s.loopCtr + 1,
          polys := hupd s.polys p
            { rec with first := some s.loopCtr, last := some s.loopCtr } },
        s.loopCtr, ⟨some s.loopCtr, some s.loopCtr, rec.next⟩, ⟨none, none, none⟩,
        ?_, ?_, rfl, ?_, rfl⟩
      · simp [addNewLinkedLoop, addLinkedLoop, hp, hlast, hfirst]
      · dsimp only
        rw [hupd_same]
      · dsimp only
        rw [hupd_same]
    | some t =>
      obtain ⟨tl, htl⟩ := hlive t hlast
      have htlt : t < s.loopCtr := by
        by_contra hc
        rw [hwf t (by omega)] at htl
        cases htl
      have htne : t ≠ s.loopCtr := by omega
      refine ⟨{ s with
          loops := hupd (hupd s.loops s.loopCtr ⟨none, none, none⟩) t
            { tl with next := some s.loopCtr },
          loopCtr := s.loopCtr + 1,
          polys := hupd s.polys p { rec with last := some s.loopCtr } },
        s.loopCtr, ⟨rec.first, some s.loopCtr, rec.next⟩, ⟨none, none, none⟩,
        ?_, ?_, rfl, ?_, rfl⟩
      · simp [addNewLinkedLoop, addLinkedLoop, hp, hlast, hupd_other _ _ _ htne, htl]
      · dsimp only
        rw [hupd_same]
      · dsimp only
        rw [hupd_other _ _ _ (Ne.symm htne), hupd_same]
  · intro p l rec lrec hp hl hlnext halias hassert hlive
    cases hlast : rec.last with
    | none =>
      have hfirst : rec.first = none := hassert hlast
      refine ⟨{ s with
          polys := hupd s.polys p { rec with first := some l, last := some l } },
        ⟨some l, some l, rec.next⟩, ?_, ?_, rfl, hl⟩
      · simp [addLinkedLoop, hp, hlast, hfirst]
      · dsimp only
        rw [hupd_same]
    | some t =>
      obtain ⟨tl, htl⟩ := hlive t hlast
      have htnl : l ≠ t := by
        intro he
        rw [hlast, he] at halias
        exact halias rfl
      refine ⟨{ s with
          loops := hupd s.loops t { tl with next := some l },
          polys := hupd s.polys p { rec with last := some l } },
        ⟨rec.first, some l, rec.next⟩, ?_, ?_, rfl, ?_⟩
      · simp [addLinkedLoop, hp, hlast, htl]
      · dsimp only
        rw [hupd_same]
      · dsimp only
        rw [hupd_other _ _ _ htnl]
        exact hl

/-- Witness for c7_amended_last_next_none: one coordinate append on the
empty loop of wHeap, and attaching the fresh detached loop 3 to the
polygon of dHeap. -/
theorem c7_witness :
    (∃ s2 c rec2 cr, addLinkedCoord wHeap 0 ⟨4, 4⟩ = some (s2, c) ∧
      s2.loops 0 = some rec2 ∧ rec2.last = some c ∧
      s2.coords c = some cr ∧ cr.next = none) ∧
    (∃ s2 rec2, addLinkedLoop dHeap 0 3 = some (s2, 3) ∧
      s2.polys 0 = some rec2 ∧ rec2.last = some 3 ∧
      s2.loops 3 = some ⟨none, none, none⟩) :=
  ⟨(c7_amended_last_next_none wHeap).1 0 ⟨4, 4⟩ ⟨none, none, none⟩ rfl
      (fun _ => rfl) (fun t ht => by cases ht) (fun a ha => rfl),
   (c7_amended_last_next_none dHeap).2.2 0 3 ⟨some 1, some 1, none⟩
      ⟨none, none, none⟩ rfl rfl rfl (by simp)
      (fun h => by cases h)
      (fun t ht => by
        injection ht with ht
        subst ht
        exact ⟨⟨none, none, none⟩, rfl⟩)⟩

/-- C10 counterexample: the claim states addLinkedLoop never reads or
writes the attached loop's next field.  In cHeap10 loop 0 is already
polygon 0's last loop with next none; re-attaching loop 0 executes the
old-last write on loop 0 itself and sets its next from none to some 0. -/
theorem c10_counterexample :
    cHeap10.loops 0 = some ⟨none, none, none⟩ ∧
    loopAfter (addLinkedLoop cHeap10 0 0) 0 = some ⟨none, none, some 0⟩ ∧
    polyAfter (addLinkedLoop cHeap10 0 0) 0 = some ⟨some 0, some 0, none⟩ :=
  ⟨rfl, rfl, rfl⟩

/-- C10 (amended): provided the attached loop l is not already the
polygon's last loop, addLinkedLoop leaves l's record (its next field
included) untouched; and if additionally the polygon's old last loop does
not occur in the chain hanging off l, that whole chain stays intact and
reachable from p, with p.last referencing l itself rather than the
chain's actual tail. -/
theorem c10_amended_no_write_to_loop (s : Heap) (p l : Nat)
    (rec : LinkedGeoPolygon)
    (hp : s.polys p = some rec)
    (hassert : rec.last = none → rec.first = none)
    (hlive : ∀ t, rec.last = some t → ∃ tl, s.loops t = some tl)
    (halias : rec.last ≠ some l) :
    ∃ s2, addLinkedLoop s p l = some (s2, l) ∧
      s2.loops l = s.loops l ∧
      (∃ rec2, s2.polys p = some rec2 ∧ rec2.last = some l) ∧
      (∀ ch, LoopNext s (some l) ch →
        (∀ t, rec.last = some t → t ∉ ch) → LoopNext s2 (some l) ch) := by
  cases hlast : rec.last with
  | none =>
    have hfirst : rec.first = none := hassert hlast
    refine ⟨{ s with
        polys := hupd s.polys p { rec with first := some l, last := some l } },
      ?_, rfl, ⟨⟨some l, some l, rec.next⟩, ?_, rfl⟩, ?_⟩
    · simp [addLinkedLoop, hp, hlast, hfirst]
    · dsimp only
      rw [hupd_same]
    · intro ch hch _
      exact hch
  | some t =>
    obtain ⟨tl, htl⟩ := hlive t hlast
    have htnl : l ≠ t := by
      intro he
      rw [hlast, he] at halias
      exact halias rfl
    refine ⟨{ s with
        loops := hupd s.loops t { tl with next := some l },
        polys := hupd s.polys p { rec with last := some l } },
      ?_, ?_, ⟨⟨rec.first, some l, rec.next⟩, ?_, rfl⟩, ?_⟩
    · simp [addLinkedLoop, hp, hlast, htl]
    · dsimp only
      rw [hupd_other _ _ _ htnl]
    · dsimp only
      rw [hupd_same]
    · intro ch hch hnotin
      refine nextChain_frame hch ?_
      intro x hx
      dsimp only
      rw [hupd_other]
      intro he
      subst he
      exact hnotin x rfl hx

/-- Witness for c10_amended_no_write_to_loop: attaching loop 2 of dHeap
(which heads the detached chain 2, 3) to polygon 0, whose last loop is
1. -/
theorem c10_witness :
    ∃ s2, addLinkedLoop dHeap 0 2 = some (s2, 2) ∧
      s2.loops 2 = dHeap.loops 2 ∧
      (∃ rec2, s2.polys 0 = some rec2 ∧ rec2.last = some 2) ∧
      LoopNext s2 (some 2) [2, 3] := by
  obtain ⟨s2, h1, h2, h3, h4⟩ :=
    c10_amended_no_write_to_loop dHeap 0 2 ⟨some 1, some 1, none⟩ rfl
      (fun h => by cases h)
      (fun t ht => by
        injection ht with ht
        subst ht
        exact ⟨⟨none, none, none⟩, rfl⟩)
      (by simp)
  refine ⟨s2, h1, h2, h3, h4 [2, 3] ?_ ?_⟩
  · exact NextChain.cons rfl (NextChain.cons rfl NextChain.nil)
  · intro t ht
    injection ht with ht
    subst ht
    simp

theorem loopAddrs_cons (ld : LoopDesc) (rest : List LoopDesc) :
    loopAddrs (ld :: rest) = ld.addr :: loopAddrs rest := rfl

theorem loopCoordAddrs_cons (ld : LoopDesc) (rest : List LoopDesc) :
    loopCoordAddrs (ld :: rest) = coordAddrs ld.coords ++ loopCoordAddrs rest := by
  simp [loopCoordAddrs]

theorem loopCoordAddrs_append (l1 l2 : List LoopDesc) :
    loopCoordAddrs (l1 ++ l2) = loopCoordAddrs l1 ++ loopCoordAddrs l2 := by
  simp [loopCoordAddrs]

theorem loopAddrs_append (l1 l2 : List LoopDesc) :
    loopAddrs (l1 ++ l2) = loopAddrs l1 ++ loopAddrs l2 := by
  simp [loopAddrs]

theorem polyLoopDescs_cons (d : PolyDesc) (rest : List PolyDesc) :
    polyLoopDescs (d :: rest) = d.loops ++ polyLoopDescs rest := by
  simp [polyLoopDescs]

theorem polyAddrs_cons (d : PolyDesc) (rest : List PolyDesc) :
    polyAddrs (d :: rest) = d.addr :: polyAddrs rest := rfl

theorem polyCoordAddrs_cons (d : PolyDesc) (rest : List PolyDesc) :
    polyCoordAddrs (d :: rest) = loopCoordAddrs d.loops ++ polyCoordAddrs rest := by
  rw [polyCoordAddrs, polyLoopDescs_cons, loopCoordAddrs_append]
  rfl

theorem polyLoopAddrs_cons (d : PolyDesc) (rest : List PolyDesc) :
    polyLoopAddrs (d :: rest) = loopAddrs d.loops ++ polyLoopAddrs rest := by
  rw [polyLoopAddrs, polyLoopDescs_cons, loopAddrs_append]
  rfl

theorem loopChain_frame {s s2 : Heap} {c : Option Nat} {ls : List LoopDesc}
    (h : LoopChain s c ls)
    (hloops : ∀ x ∈ loopAddrs ls, s2.loops x = s.loops x)
    (hcoords : ∀ x ∈ loopCoordAddrs ls, s2.coords x = s.coords x) :
    LoopChain s2 c ls := by
  induction h with
  | nil => exact LoopChain.nil
  | cons hrec hcoord hrest ih =>
    rename_i a fst lst nx cs rest
    refine @LoopChain.cons s2 a fst lst nx cs rest ?_ ?_ (ih ?_ ?_)
    · rw [hloops a (by simp [loopAddrs])]
      exact hrec
    · refine coordChain_frame hcoord ?_
      intro x hx
      refine hcoords x ?_
      rw [loopCoordAddrs_cons]
      simp
      exact Or.inl hx
    · intro x hx
      refine hloops x ?_
      simp [loopAddrs] at hx ⊢
      exact Or.inr hx
    · intro x hx
      refine hcoords x ?_
      rw [loopCoordAddrs_cons]
      simp
      exact Or.inr hx

theorem polyChain_frame {s s2 : Heap} {c : Option Nat} {ds : List PolyDesc}
    (h : PolyChain s c ds)
    (hpolys : ∀ x ∈ polyAddrs ds, s2.polys x = s.polys x)
    (hloops : ∀ x ∈ polyLoopAddrs ds, s2.loops x = s.loops x)
    (hcoords : ∀ x ∈ polyCoordAddrs ds, s2.coords x = s.coords x) :
    PolyChain s2 c ds := by
  induction h with
  | nil => exact PolyChain.nil
  | cons hrec hloop hrest ih =>
    rename_i a fst lst nx ls rest
    refine @PolyChain.cons s2 a fst lst nx ls rest ?_ ?_ (ih ?_ ?_ ?_)
    · rw [hpolys a (by simp [polyAddrs])]
      exact hrec
    · refine loopChain_frame hloop ?_ ?_
      · intro x hx
        refine hloops x ?_
        rw [polyLoopAddrs_cons]
        simp
        exact Or.inl hx
      · intro x hx
        refine hcoords x ?_
        rw [polyCoordAddrs_cons]
        simp
        exact Or.inl hx
    · intro x hx
      refine hpolys x ?_
      simp [polyAddrs] at hx ⊢
      exact Or.inr hx
    · intro x hx
      refine hloops x ?_
      rw [polyLoopAddrs_cons]
      simp
      exact Or.inr hx
    · intro x hx
      refine hcoords x ?_
      rw [polyCoordAddrs_cons]
      simp
      exact Or.inr hx

theorem freeCoordChain_none (s : Heap) (f : Nat) :
    freeCoordChain s f none = some s := by
  cases f <;> rfl

theorem freeLoopChain_none (cf lf : Nat) (s : Heap) :
    freeLoopChain cf lf s none = some s := by
  cases lf <;> rfl

theorem freePolyChain_none (cf lf pf : Nat) (s : Heap) (sk : Bool) :
    freePolyChain cf lf pf s none sk = some s := by
  cases pf <;> rfl

theorem freeCoordChain_spec :
    ∀ (cs : List (Nat × GeoCoord)) (s : Heap) (c : Option Nat) (f : Nat),
    CoordChain s c cs → cs.length ≤ f →
    ∃ s2, freeCoordChain s f c = some s2 ∧
      (∀ a ∈ coordAddrs cs, s2.coords a = none) ∧
      (∀ a, a ∉ coordAddrs cs → s2.coords a = s.coords a) ∧
      s2.loops = s.loops ∧ s2.polys = s.polys ∧
      s2.coordCtr = s.coordCtr ∧ s2.loopCtr = s.loopCtr ∧
      s2.polyCtr = s.polyCtr := by
  intro cs
  induction cs with
  | nil =>
    intro s c f h _
    have hc : c = none := by cases h; rfl
    subst hc
    exact ⟨s, freeCoordChain_none s f, by simp [coordAddrs], fun a _ => rfl,
      rfl, rfl, rfl, rfl, rfl⟩
  | cons c0 rest ih =>
    intro s c f h hf
    obtain ⟨a, v⟩ := c0
    have hnd : a ∉ coordAddrs rest := by
      have := coordChain_nodup h
      cases h with
      | cons ha hrest =>
        simpa [coordAddrs] using (List.nodup_cons.mp this).1
    cases h with
    | cons ha hrest =>
      rename_i n
      cases f with
      | zero => simp at hf
      | succ f1 =>
        have hf1 : rest.length ≤ f1 := by
          simp at hf
          omega
        have hchain1 : CoordChain { s with coords := hdel s.coords a } n rest := by
          refine coordChain_frame hrest ?_
          intro x hx
          have hxa : x ≠ a := fun he => hnd (he ▸ hx)
          exact hdel_other _ _ hxa
        obtain ⟨s2, heq, hin, hout, hlp, hpl, hc1, hc2, hc3⟩ :=
          ih { s with coords := hdel s.coords a } n f1 hchain1 hf1
        have hstep : freeCoordChain s (f1 + 1) (some a) =
            freeCoordChain { s with coords := hdel s.coords a } f1 n := by
          simp only [freeCoordChain]
          rw [ha]
          rfl
        refine ⟨s2, ?_, ?_, ?_, hlp, hpl, hc1, hc2, hc3⟩
        · rw [hstep]
          exact heq
        · intro x hx
          simp only [coordAddrs, List.map_cons, List.mem_cons] at hx
          rcases hx with rfl | hx
          · rw [hout x hnd]
            exact hdel_same ..
          · exact hin x hx
        · intro x hx
          simp only [coordAddrs, List.map_cons, List.mem_cons] at hx
          push_neg at hx
          rw [hout x hx.2]
          exact hdel_other _ _ hx.1

theorem destroyLinkedGeoLoop_spec {s : Heap} {a : Nat} {fst lst nx : Option Nat}
    {cs : List (Nat × GeoCoord)} {cf : Nat}
    (hrec : s.loops a = some ⟨fst, lst, nx⟩) (hchain : CoordChain s fst cs)
    (hcf : cs.length ≤ cf) :
    ∃ s2, destroyLinkedGeoLoop cf s a = some s2 ∧
      (∀ x ∈ coordAddrs cs, s2.coords x = none) ∧
      (∀ x, x ∉ coordAddrs cs → s2.coords x = s.coords x) ∧
      s2.loops = s.loops ∧ s2.polys = s.polys ∧
      s2.coordCtr = s.coordCtr ∧ s2.loopCtr = s.loopCtr ∧
      s2.polyCtr = s.polyCtr := by
  obtain ⟨s2, heq, hin, hout, hlp, hpl, hc1, hc2, hc3⟩ :=
    freeCoordChain_spec cs s fst cf hchain hcf
  refine ⟨s2, ?_, hin, hout, hlp, hpl, hc1, hc2, hc3⟩
  rw [destroyLinkedGeoLoop, hrec]
  exact heq

theorem freeLoopChain_spec (cf : Nat) :
    ∀ (ls : List LoopDesc) (s : Heap) (c : Option Nat) (lf : Nat),
    LoopChain s c ls → ls.length ≤ lf →
    (∀ ld ∈ ls, ld.coords.length ≤ cf) →
    (loopCoordAddrs ls).Nodup → (loopAddrs ls).Nodup →
    ∃ s2, freeLoopChain cf lf s c = some s2 ∧
      (∀ x ∈ loopCoordAddrs ls, s2.coords x = none) ∧
      (∀ x, x ∉ loopCoordAddrs ls → s2.coords x = s.coords x) ∧
      (∀ x ∈ loopAddrs ls, s2.loops x = none) ∧
      (∀ x, x ∉ loopAddrs ls → s2.loops x = s.loops x) ∧
      s2.polys = s.polys ∧
      s2.coordCtr = s.coordCtr ∧ s2.loopCtr = s.loopCtr ∧
      s2.polyCtr = s.polyCtr := by
  intro ls
  induction ls with
  | nil =>
    intro s c lf h _ _ _ _
    have hc : c = none := by cases h; rfl
    subst hc
    exact ⟨s, freeLoopChain_none .., by simp [loopCoordAddrs], fun x _ => rfl,
      by simp [loopAddrs], fun x _ => rfl, rfl, rfl, rfl, rfl⟩
  | cons ld rest ih =>
    intro s c lf h hlf hcf hndc hndl
    obtain ⟨a, cs⟩ := ld
    cases h with
    | cons hrec hcoord hrest =>
      rename_i fst lst nx
      cases lf with
      | zero => simp at hlf
      | succ lf1 =>
        have hlf1 : rest.length ≤ lf1 := by
          simp at hlf
          omega
        obtain ⟨sA, heqA, hinA, houtA, hlpA, hplA, hA1, hA2, hA3⟩ :=
          destroyLinkedGeoLoop_spec hrec hcoord (hcf ⟨a, cs⟩ (by simp))
        rw [loopCoordAddrs_cons] at hndc
        have hndc2 := List.nodup_append.mp hndc
        have hdisj : ∀ x ∈ coordAddrs cs, x ∉ loopCoordAddrs rest :=
          fun x hx hmem => hndc2.2.2 hx hmem
        rw [loopAddrs_cons] at hndl
        have hndl2 := List.nodup_cons.mp hndl
        have hnda : a ∉ loopAddrs rest := hndl2.1
        have hrecA : sA.loops a = some ⟨fst, lst, nx⟩ := by
          rw [hlpA]
          exact hrec
        have hchainB : LoopChain { sA with loops := hdel sA.loops a } nx rest := by
          refine loopChain_frame hrest ?_ ?_
          · intro x hx
            have hxa : x ≠ a := fun he => hnda (he ▸ hx)
            dsimp only
            rw [hdel_other _ _ hxa, hlpA]
          · intro x hx
            dsimp only
            exact houtA x (fun hmem => hdisj x hmem hx)
        obtain ⟨s2, heq2, hinc2, houtc2, hinl2, houtl2, hpl2, hB1, hB2, hB3⟩ :=
          ih { sA with loops := hdel sA.loops a } nx lf1 hchainB hlf1
            (fun ld2 hld2 => hcf ld2 (by simp [hld2]))
            hndc2.2.1 hndl2.2
        have hstep : freeLoopChain cf (lf1 + 1) s (some a) =
            freeLoopChain cf lf1 { sA with loops := hdel sA.loops a } nx := by
          simp only [freeLoopChain]
          rw [heqA]
          show (do
            let lp ← sA.loops a
            freeLoopChain cf lf1 { sA with loops := hdel sA.loops a } lp.next) =
            freeLoopChain cf lf1 { sA with loops := hdel sA.loops a } nx
          rw [hrecA]
          rfl
        refine ⟨s2, ?_, ?_, ?_, ?_, ?_, ?_, ?_, ?_, ?_⟩
        · rw [hstep]
          exact heq2
        · intro x hx
          rw [loopCoordAddrs_cons] at hx
          rcases List.mem_append.mp hx with hx | hx
          · rw [houtc2 x (fun hmem => hdisj x hx hmem)]
            dsimp only
            exact hinA x hx
          · exact hinc2 x hx
        · intro x hx
          rw [loopCoordAddrs_cons] at hx
          have hx1 : x ∉ coordAddrs cs := fun hm => hx (List.mem_append.mpr (Or.inl hm))
          have hx2 : x ∉ loopCoordAddrs rest := fun hm => hx (List.mem_append.mpr (Or.inr hm))
          rw [houtc2 x hx2]
          dsimp only
          exact houtA x hx1
        · intro x hx
          rw [loopAddrs_cons] at hx
          rcases List.mem_cons.mp hx with rfl | hx
          · rw [houtl2 x hnda]
            dsimp only
            exact hdel_same ..
          · exact hinl2 x hx
        · intro x hx
          rw [loopAddrs_cons] at hx
          have hx1 : x ≠ a := fun he => hx (he ▸ List.mem_cons_self ..)
          have hx2 : x ∉ loopAddrs rest := fun hm => hx (List.mem_cons_of_mem _ hm)
          rw [houtl2 x hx2]
          dsimp only
          rw [hdel_other _ _ hx1, hlpA]
        · rw [hpl2]
          dsimp only
          exact hplA
        · rw [hB1]
          dsimp only
          exact hA1
        · rw [hB2]
          dsimp only
          exact hA2
        · rw [hB3]
          dsimp only
          exact hA3

theorem freePolyChain_spec (cf lf : Nat) :
    ∀ (ds : List PolyDesc) (s : Heap) (c : Option Nat) (pf : Nat),
    PolyChain s c ds → ds.length ≤ pf →
    (∀ ld ∈ polyLoopDescs ds, ld.coords.length ≤ cf) →
    (∀ d ∈ ds, d.loops.length ≤ lf) →
    (polyCoordAddrs ds).Nodup → (polyLoopAddrs ds).Nodup →
    (polyAddrs ds).Nodup →
    ∃ s2, freePolyChain cf lf pf s c false = some s2 ∧
      (∀ x ∈ polyCoordAddrs ds, s2.coords x = none) ∧
      (∀ x, x ∉ polyCoordAddrs ds → s2.coords x = s.coords x) ∧
      (∀ x ∈ polyLoopAddrs ds, s2.loops x = none) ∧
      (∀ x, x ∉ polyLoopAddrs ds → s2.loops x = s.loops x) ∧
      (∀ x ∈ polyAddrs ds, s2.polys x = none) ∧
      (∀ x, x ∉ polyAddrs ds → s2.polys x = s.polys x) ∧
      s2.coordCtr = s.coordCtr ∧ s2.loopCtr = s.loopCtr ∧
      s2.polyCtr = s.polyCtr := by
  intro ds
  induction ds with
  | nil =>
    intro s c pf h _ _ _ _ _ _
    have hc : c = none := by cases h; rfl
    subst hc
    exact ⟨s, freePolyChain_none .., by simp [polyCoordAddrs, polyLoopDescs, loopCoordAddrs],
      fun x _ => rfl, by simp [polyLoopAddrs, polyLoopDescs, loopAddrs], fun x _ => rfl,
      by simp [polyAddrs], fun x _ => rfl, rfl, rfl, rfl⟩
  | cons d rest ih =>
    intro s c pf h hpf hcf hlf hndc hndl hndp
    obtain ⟨a, ls⟩ := d
    cases h with
    | cons hrec hloop hrest =>
      rename_i fst lst nx
      cases pf with
      | zero => simp at hpf
      | succ pf1 =>
        have hpf1 : rest.length ≤ pf1 := by
          simp at hpf
          omega
        rw [polyCoordAddrs_cons] at hndc
        have hndc2 := List.nodup_append.mp hndc
        have hdisjc : ∀ x ∈ loopCoordAddrs ls, x ∉ polyCoordAddrs rest :=
          fun x hx hmem => hndc2.2.2 hx hmem
        rw [polyLoopAddrs_cons] at hndl
        have hndl2 := List.nodup_append.mp hndl
        have hdisjl : ∀ x ∈ loopAddrs ls, x ∉ polyLoopAddrs rest :=
          fun x hx hmem => hndl2.2.2 hx hmem
        rw [polyAddrs_cons] at hndp
        have hndp2 := List.nodup_cons.mp hndp
        have hnda : a ∉ polyAddrs rest := hndp2.1
        obtain ⟨sA, heqA, hincA, houtcA, hinlA, houtlA, hplA, hA1, hA2, hA3⟩ :=
          freeLoopChain_spec cf ls s fst lf hloop (hlf ⟨a, ls⟩ (by simp))
            (fun ld hld => hcf ld (by rw [polyLoopDescs_cons]; simp; exact Or.inl hld))
            hndc2.1 hndl2.1
        have hrecA : sA.polys a = some ⟨fst, lst, nx⟩ := by
          rw [hplA]
          exact hrec
        have hchainB : PolyChain { sA with polys := hdel sA.polys a } nx rest := by
          refine polyChain_frame hrest ?_ ?_ ?_
          · intro x hx
            have hxa : x ≠ a := fun he => hnda (he ▸ hx)
            dsimp only
            rw [hdel_other _ _ hxa, hplA]
          · intro x hx
            dsimp only
            exact houtlA x (fun hmem => hdisjl x hmem hx)
          · intro x hx
            dsimp only
            exact houtcA x (fun hmem => hdisjc x hmem hx)
        obtain ⟨s2, heq2, hinc2, houtc2, hinl2, houtl2, hinp2, houtp2, hB1, hB2, hB3⟩ :=
          ih { sA with polys := hdel sA.polys a } nx pf1 hchainB hpf1
            (fun ld hld => hcf ld (by rw [polyLoopDescs_cons]; simp; exact Or.inr hld))
            (fun d2 hd2 => hlf d2 (by simp [hd2]))
            hndc2.2.1 hndl2.2.1 hndp2.2
        have hstep : freePolyChain cf lf (pf1 + 1) s (some a) false =
            freePolyChain cf lf pf1 { sA with polys := hdel sA.polys a } nx false := by
          simp only [freePolyChain]
          rw [hrec]
          show (do
            let s1 ← freeLoopChain cf lf s fst
            let poly2 ← s1.polys a
            freePolyChain cf lf pf1 { s1 with polys := hdel s1.polys a }
              poly2.next false) =
            freePolyChain cf lf pf1 { sA with polys := hdel sA.polys a } nx false
          rw [heqA]
          show (do
            let poly2 ← sA.polys a
            freePolyChain cf lf pf1 { sA with polys := hdel sA.polys a }
              poly2.next false) =
            freePolyChain cf lf pf1 { sA with polys := hdel sA.polys a } nx false
          rw [hrecA]
          rfl
        refine ⟨s2, ?_, ?_, ?_, ?_, ?_, ?_, ?_, ?_, ?_, ?_⟩
        · rw [hstep]
          exact heq2
        · intro x hx
          rw [polyCoordAddrs_cons] at hx
          rcases List.mem_append.mp hx with hx | hx
          · rw [houtc2 x (fun hmem => hdisjc x hx hmem)]
            dsimp only
            exact hincA x hx
          · exact hinc2 x hx
        · intro x hx
          rw [polyCoordAddrs_cons] at hx
          have hx1 : x ∉ loopCoordAddrs ls := fun hm => hx (List.mem_append.mpr (Or.inl hm))
          have hx2 : x ∉ polyCoordAddrs rest := fun hm => hx (List.mem_append.mpr (Or.inr hm))
          rw [houtc2 x hx2]
          dsimp only
          exact houtcA x hx1
        · intro x hx
          rw [polyLoopAddrs_cons] at hx
          rcases List.mem_append.mp hx with hx | hx
          · rw [houtl2 x (fun hmem => hdisjl x hx hmem)]
            dsimp only
            exact hinlA x hx
          · exact hinl2 x hx
        · intro x hx
          rw [polyLoopAddrs_cons] at hx
          have hx1 : x ∉ loopAddrs ls := fun hm => hx (List.mem_append.mpr (Or.inl hm))
          have hx2 : x ∉ polyLoopAddrs rest := fun hm => hx (List.mem_append.mpr (Or.inr hm))
          rw [houtl2 x hx2]
          dsimp only
          exact houtlA x hx1
        · intro x hx
          rw [polyAddrs_cons] at hx
          rcases List.mem_cons.mp hx with rfl | hx
          · rw [houtp2 x hnda]
            dsimp only
            exact hdel_same ..
          · exact hinp2 x hx
        · intro x hx
          rw [polyAddrs_cons] at hx
          have hx1 : x ≠ a := fun he => hx (he ▸ List.mem_cons_self ..)
          have hx2 : x ∉ polyAddrs rest := fun hm => hx (List.mem_cons_of_mem _ hm)
          rw [houtp2 x hx2]
          dsimp only
          rw [hdel_other _ _ hx1, hplA]
        · rw [hB1]
          dsimp only
          exact hA1
        · rw [hB2]
          dsimp only
          exact hA2
        · rw [hB3]
          dsimp only
          exact hA3

/-- C2: for every fully built structure (a polygon chain whose loops and
coordinate chains are pairwise disjoint, as construction guarantees) and
enough fuel for each C loop, destroyLinkedPolygon succeeds and releases
every coordinate node, every loop entity and every polygon entity
reachable from the input polygon, except the input polygon itself, whose
record is untouched; nothing outside the structure is affected.  Success
of the embedded traversal certifies the next-before-free order: the
embedding frees a node right after capturing its next pointer, so reading
a freed node's linkage would surface as a none result. -/
theorem c2_destroy_releases_all (s : Heap) (p : Nat) (ls : List LoopDesc)
    (rest : List PolyDesc) (cf lf pf : Nat)
    (hchain : PolyChain s (some p) (⟨p, ls⟩ :: rest))
    (hndc : (polyCoordAddrs (⟨p, ls⟩ :: rest)).Nodup)
    (hndl : (polyLoopAddrs (⟨p, ls⟩ :: rest)).Nodup)
    (hndp : (polyAddrs (⟨p, ls⟩ :: rest)).Nodup)
    (hcf : ∀ ld ∈ polyLoopDescs (⟨p, ls⟩ :: rest), ld.coords.length ≤ cf)
    (hlf : ∀ d ∈ (⟨p, ls⟩ :: rest : List PolyDesc), d.loops.length ≤ lf)
    (hpf : rest.length + 1 ≤ pf) :
    ∃ s2, destroyLinkedPolygon cf lf pf s p = some s2 ∧
      (∀ x ∈ polyCoordAddrs (⟨p, ls⟩ :: rest), s2.coords x = none) ∧
      (∀ x, x ∉ polyCoordAddrs (⟨p, ls⟩ :: rest) → s2.coords x = s.coords x) ∧
      (∀ x ∈ polyLoopAddrs (⟨p, ls⟩ :: rest), s2.loops x = none) ∧
      (∀ x, x ∉ polyLoopAddrs (⟨p, ls⟩ :: rest) → s2.loops x = s.loops x) ∧
      s2.polys p = s.polys p ∧
      (∀ x ∈ polyAddrs rest, s2.polys x = none) ∧
      (∀ x, x ∉ polyAddrs (⟨p, ls⟩ :: rest) → s2.polys x = s.polys x) := by
  cases hchain with
  | cons hrec hloop hrest =>
    rename_i fst lst nx
    cases pf with
    | zero => omega
    | succ pf1 =>
      have hpf1 : rest.length ≤ pf1 := by omega
      rw [polyCoordAddrs_cons] at hndc
      have hndc2 := List.nodup_append.mp hndc
      have hdisjc : ∀ x ∈ loopCoordAddrs ls, x ∉ polyCoordAddrs rest :=
        fun x hx hmem => hndc2.2.2 hx hmem
      rw [polyLoopAddrs_cons] at hndl
      have hndl2 := List.nodup_append.mp hndl
      have hdisjl : ∀ x ∈ loopAddrs ls, x ∉ polyLoopAddrs rest :=
        fun x hx hmem => hndl2.2.2 hx hmem
      rw [polyAddrs_cons] at hndp
      have hndp2 := List.nodup_cons.mp hndp
      have hnda : p ∉ polyAddrs rest := hndp2.1
      obtain ⟨sA, heqA, hincA, houtcA, hinlA, houtlA, hplA, hA1, hA2, hA3⟩ :=
        freeLoopChain_spec cf ls s fst lf hloop (hlf ⟨p, ls⟩ (by simp))
          (fun ld hld => hcf ld (by rw [polyLoopDescs_cons]; simp; exact Or.inl hld))
          hndc2.1 hndl2.1
      have hrecA : sA.polys p = some ⟨fst, lst, nx⟩ := by
        rw [hplA]
        exact hrec
      have hchainB : PolyChain sA nx rest := by
        refine polyChain_frame hrest ?_ ?_ ?_
        · intro x hx
          rw [hplA]
        · intro x hx
          exact houtlA x (fun hmem => hdisjl x hmem hx)
        · intro x hx
          exact houtcA x (fun hmem => hdisjc x hmem hx)
      obtain ⟨s2, heq2, hinc2, houtc2, hinl2, houtl2, hinp2, houtp2, hB1, hB2, hB3⟩ :=
        freePolyChain_spec cf lf rest sA nx pf1 hchainB hpf1
          (fun ld hld => hcf ld (by rw [polyLoopDescs_cons]; simp; exact Or.inr hld))
          (fun d2 hd2 => hlf d2 (by simp [hd2]))
          hndc2.2.1 hndl2.2.1 hndp2.2
      have hstep : destroyLinkedPolygon cf lf (pf1 + 1) s p =
          freePolyChain cf lf pf1 sA nx false := by
        rw [destroyLinkedPolygon]
        simp only [freePolyChain]
        rw [hrec]
        show (do
          let s1 ← freeLoopChain cf lf s fst
          let poly2 ← s1.polys p
          freePolyChain cf lf pf1 s1 poly2.next false) =
          freePolyChain cf lf pf1 sA nx false
        rw [heqA]
        show (do
          let poly2 ← sA.polys p
          freePolyChain cf lf pf1 sA poly2.next false) =
          freePolyChain cf lf pf1 sA nx false
        rw [hrecA]
        rfl
      refine ⟨s2, ?_, ?_, ?_, ?_, ?_, ?_, ?_, ?_⟩
      · rw [hstep]
        exact heq2
      · intro x hx
        rw [polyCoordAddrs_cons] at hx
        rcases List.mem_append.mp hx with hx | hx
        · rw [houtc2 x (fun hmem => hdisjc x hx hmem)]
          exact hincA x hx
        · exact hinc2 x hx
      · intro x hx
        rw [polyCoordAddrs_cons] at hx
        have hx1 : x ∉ loopCoordAddrs ls := fun hm => hx (List.mem_append.mpr (Or.inl hm))
        have hx2 : x ∉ polyCoordAddrs rest := fun hm => hx (List.mem_append.mpr (Or.inr hm))
        rw [houtc2 x hx2]
        exact houtcA x hx1
      · intro x hx
        rw [polyLoopAddrs_cons] at hx
        rcases List.mem_append.mp hx with hx | hx
        · rw [houtl2 x (fun hmem => hdisjl x hx hmem)]
          exact hinlA x hx
        · exact hinl2 x hx
      · intro x hx
        rw [polyLoopAddrs_cons] at hx
        have hx1 : x ∉ loopAddrs ls := fun hm => hx (List.mem_append.mpr (Or.inl hm))
        have hx2 : x ∉ polyLoopAddrs rest := fun hm => hx (List.mem_append.mpr (Or.inr hm))
        rw [houtl2 x hx2]
        exact houtlA x hx1
      · rw [houtp2 p hnda, hplA]
      · intro x hx
        exact hinp2 x hx
      · intro x hx
        rw [polyAddrs_cons] at hx
        have hx2 : x ∉ polyAddrs rest := fun hm => hx (List.mem_cons_of_mem _ hm)
        rw [houtp2 x hx2, hplA]

/-- Witness for c2_destroy_releases_all: destroying the two-polygon
structure of bHeap frees coordinates 0, 1, 2, loops 0, 1 and polygon 1,
and leaves the caller-owned polygon 0 record in place. -/
theorem c2_witness :
    ∃ s2, destroyLinkedPolygon 2 2 2 bHeap 0 = some s2 ∧
      s2.coords 0 = none ∧ s2.coords 1 = none ∧ s2.coords 2 = none ∧
      s2.loops 0 = none ∧ s2.loops 1 = none ∧
      s2.polys 1 = none ∧ s2.polys 0 = bHeap.polys 0 := by
  obtain ⟨s2, heq, hinc, -, hinl, -, hp0, hinp, -⟩ :=
    c2_destroy_releases_all bHeap 0 [⟨0, [(0, ⟨0, 0⟩), (1, ⟨1, 0⟩)]⟩]
      [⟨1, [⟨1, [(2, ⟨5, 5⟩)]⟩]⟩] 2 2 2
      (PolyChain.cons rfl
        (LoopChain.cons rfl
          (CoordChain.cons rfl (CoordChain.cons rfl CoordChain.nil))
          LoopChain.nil)
        (PolyChain.cons rfl
          (LoopChain.cons rfl (CoordChain.cons rfl CoordChain.nil) LoopChain.nil)
          PolyChain.nil))
      (by decide) (by decide) (by decide) (by decide) (by decide) (by decide)
  refine ⟨s2, heq, ?_, ?_, ?_, ?_, ?_, ?_, hp0⟩
  · exact hinc 0 (by decide)
  · exact hinc 1 (by decide)
  · exact hinc 2 (by decide)
  · exact hinl 0 (by decide)
  · exact hinl 1 (by decide)
  · exact hinp 1 (by decide)
